import Mathlib

/-!
# LRU cache (`main.go`): shallow embedding and verified properties

The Go program keeps a `map[string]*list.Element` (the index) next to a
`container/list` doubly linked list (the recency list).  The embedding keeps
both: list elements live in an arena (`GoList.heap`), an element pointer is its
arena address, and the linked order is the sequence of addresses from front to
back.  A failing type assertion (a Go panic) is the result `none`.
-/

namespace CacheGolang

/-! ## Data model -/

/-- Payload of an entry (`interface{}` in the source): nil, a string or an integer.
The cache never inspects a payload, it only stores and returns it. -/
inductive Value where
  | nil
  | str (s : String)
  | int (n : Int)
deriving DecidableEq, Repr

/-- Record `CacheEntry` of the source: a key with its payload. -/
structure CacheEntry where
  key : String
  value : Value
deriving DecidableEq, Repr

/-- Dynamic content of the field `Value` of a `list.Element` (static type `any`):
the nil interface or a `*CacheEntry`. -/
inductive Any where
  | nil
  | entry (e : CacheEntry)
deriving DecidableEq, Repr

/-- Pointer `*list.Element`: the arena address of the element. -/
abbrev Element := Nat

/-- Model of `container/list.List`: `heap` holds the `Value` field of every element
ever allocated for this list, `order` the addresses of the linked elements from
front to back. -/
structure GoList where
  heap : List Any
  order : List Element
deriving DecidableEq, Repr

namespace GoList

/-- Function `list.New()`: the empty list. -/
def New : GoList := { heap := [], order := [] }

/-- Method `Len()`. -/
def Len (l : GoList) : Nat := l.order.length

/-- Method `PushFront(v)`: allocates an element holding `v`, links it at the front
and returns its pointer. -/
def PushFront (l : GoList) (v : Any) : Element × GoList :=
  (l.heap.length, { heap := l.heap ++ [v], order := l.heap.length :: l.order })

/-- Method `MoveToFront(e)`: does nothing when `e` is not linked in this list or is
already the front element, otherwise unlinks `e` and relinks it at the front. -/
def MoveToFront (l : GoList) (e : Element) : GoList :=
  if e ∈ l.order ∧ l.order.head? ≠ some e then
    { heap := l.heap, order := e :: l.order.erase e }
  else l

/-- Method `Back()`: the last linked element, nil (`none`) on an empty list. -/
def Back (l : GoList) : Option Element := l.order.getLast?

/-- Method `Front()`: the first linked element, nil (`none`) on an empty list. -/
def Front (l : GoList) : Option Element := l.order.head?

/-- Method `Remove(e)`: unlinks `e` when it is linked in this list. -/
def Remove (l : GoList) (e : Element) : GoList :=
  if e ∈ l.order then { heap := l.heap, order := l.order.erase e } else l

/-- Read of `e.Value`. -/
def load (l : GoList) (e : Element) : Option Any := l.heap[e]?

/-- Write through the pointer held in `e.Value`. -/
def store (l : GoList) (e : Element) (v : Any) : GoList :=
  { heap := l.heap.set e v, order := l.order }

end GoList

/-! ### The index: `map[string]*list.Element` as an association list -/

/-- Map read `m[k]` in its comma-ok form. -/
def mapLookup : List (String × Element) → String → Option Element
  | [], _ => none
  | (k', e) :: m, k => if k' = k then some e else mapLookup m k

/-- Builtin `delete(m, k)`. -/
def mapDelete (m : List (String × Element)) (k : String) : List (String × Element) :=
  m.filter (fun p => decide (p.1 ≠ k))

/-- Map write `m[k] = e`. -/
def mapStore (m : List (String × Element)) (k : String) (e : Element) :
    List (String × Element) :=
  (k, e) :: mapDelete m k

/-- Record `LRUCache` of the source.  The mutex is not modelled: calls are sequential.
`capacity` is a Go `int`; it is only ever compared with the list length. -/
structure LRUCache where
  capacity : Int
  cache : List (String × Element)
  list : GoList
deriving DecidableEq, Repr

/-! ## Operations -/

/-- Function `NewLRUCache`. -/
def NewLRUCache (capacity : Int) : LRUCache :=
  { capacity := capacity, cache := [], list := GoList.New }

/-- Type assertion `e.Value.(*CacheEntry)`: `none` is the panic. -/
def asEntry (l : GoList) (e : Element) : Option CacheEntry :=
  match l.load e with
  | some (Any.entry c) => some c
  | _ => none

/-- Method `Get`: the returned pair `(value, found)` and the cache afterwards. -/
def Get (lru : LRUCache) (key : String) : Option ((Value × Bool) × LRUCache) :=
  match mapLookup lru.cache key with
  | some element =>
    let l := lru.list.MoveToFront element
    match asEntry l element with
    | some c => some ((c.value, true), { lru with list := l })
    | none => none
  | none => some ((Value.nil, false), lru)

/-- Method `Set`: the cache afterwards. -/
def Set (lru : LRUCache) (key : String) (value : Value) : Option LRUCache :=
  match mapLookup lru.cache key with
  | some element =>
    match asEntry lru.list element with
    | some c =>
      let l := lru.list.store element (Any.entry { c with value := value })
      some { lru with list := l.MoveToFront element }
    | none => none
  | none =>
    let entry : CacheEntry := { key := key, value := value }
    let pushed := lru.list.PushFront (Any.entry entry)
    let element := pushed.1
    let l := pushed.2
    let cache := mapStore lru.cache key element
    if (l.Len : Int) > lru.capacity then
      match l.Back with
      | some oldest =>
        match asEntry l oldest with
        | some c =>
          some { lru with cache := mapDelete cache c.key, list := l.Remove oldest }
        | none => none
      | none => some { lru with cache := cache, list := l }
    else some { lru with cache := cache, list := l }

/-! ## Observations and call sequences -/

/-- Entries of the recency list from head to tail. -/
def LRUCache.entries (lru : LRUCache) : List CacheEntry :=
  lru.list.order.filterMap (asEntry lru.list)

/-- Keys of the recency list from head to tail. -/
def LRUCache.keys (lru : LRUCache) : List String :=
  lru.entries.map CacheEntry.key

/-- Keys of the index. -/
def LRUCache.indexKeys (lru : LRUCache) : List String :=
  lru.cache.map Prod.fst

/-- A call of the public interface. -/
inductive Op where
  | get (key : String)
  | set (key : String) (value : Value)
deriving DecidableEq, Repr

/-- One call, keeping only the cache afterwards. -/
def step (lru : LRUCache) : Op → Option LRUCache
  | Op.get k => (Get lru k).map Prod.snd
  | Op.set k v => Set lru k v

/-- A sequence of calls, left to right. -/
def run (lru : LRUCache) : List Op → Option LRUCache
  | [] => some lru
  | op :: ops => (step lru op).bind (fun s => run s ops)

/-- States reachable from `NewLRUCache capacity` by some sequence of calls. -/
def Reachable (capacity : Int) (s : LRUCache) : Prop :=
  ∃ ops : List Op, run (NewLRUCache capacity) ops = some s

/-! ## Representation invariant -/

/-- Representation invariant tying the index to the recency list. -/
structure WF (s : LRUCache) : Prop where
  nodup : s.list.order.Nodup
  linked : ∀ a ∈ s.list.order,
    ∃ c, asEntry s.list a = some c ∧ mapLookup s.cache c.key = some a
  indexed : ∀ k a, mapLookup s.cache k = some a →
    a ∈ s.list.order ∧ ∃ c, asEntry s.list a = some c ∧ c.key = k
  keysNodup : (s.cache.map Prod.fst).Nodup
  size : s.cache.length = s.list.order.length

/-! ## A concrete call sequence -/

/-- A short call sequence used to instantiate the theorems. -/
def sampleOps : List Op :=
  [Op.set "a" (Value.int 1), Op.set "b" (Value.str "x"), Op.get "a"]

/-- The state `sampleOps` leads to on a cache of capacity 2. -/
def sampleState : LRUCache :=
  { capacity := 2,
    cache := [("b", 1), ("a", 0)],
    list := { heap := [Any.entry ⟨"a", Value.int 1⟩, Any.entry ⟨"b", Value.str "x"⟩],
              order := [0, 1] } }

/-! ## Last-touch bookkeeping (specification side) -/

/-- Whether the call `op`, issued in state `s`, touches key `k`: a `Set` of `k`, or a
`Get` of `k` that finds it. -/
def touches (s : LRUCache) (op : Op) (k : String) : Bool :=
  match op with
  | Op.set k' _ => decide (k' = k)
  | Op.get k' =>
    decide (k' = k) &&
      (match Get s k' with
       | some r => r.1.2
       | none => false)

/-- Last-touch table after running `ops` from `s`, the calls being numbered from `n`
and `t` being the table before: a call that touches a key records its number there. -/
def touchTimes : LRUCache → Nat → (String → Option Nat) → List Op → String → Option Nat
  | _, _, t, [] => t
  | s, n, t, op :: ops =>
    match step s op with
    | some s' => touchTimes s' (n + 1) (fun k => if touches s op k then some n else t k) ops
    | none => t

/-- Number of the last call of `ops`, run on a fresh cache, that touched `k`. -/
def lastTouch (capacity : Int) (ops : List Op) (k : String) : Option Nat :=
  touchTimes (NewLRUCache capacity) 0 (fun _ => none) ops k

/-- Both keys have been touched and the last touch of `a` is older than that of `b`. -/
def older (t : String → Option Nat) (a b : String) : Bool :=
  match t a, t b with
  | some m, some m' => decide (m < m')
  | _, _ => false

/-- The keys, head to tail, all touched before call `n`, in strictly decreasing order of
last touch. -/
def Timed (keys : List String) (n : Nat) (t : String → Option Nat) : Prop :=
  (∀ k ∈ keys, ∃ m, t k = some m ∧ m < n) ∧
  keys.Pairwise (fun a b => older t b a = true)

/-- Keys passed to `Set` in a call sequence, in call order. -/
def setKeys : List Op → List String
  | [] => []
  | Op.set k _ :: ops => k :: setKeys ops
  | Op.get _ :: ops => setKeys ops

/-! ## The calls of `main` -/

/-- The three `Set` calls that open `main`. -/
def demoSetup : List Op :=
  [Op.set "company" (Value.str "Yandex"), Op.set "division" (Value.str "Yandex Lyceum"),
   Op.set "course" (Value.str "Golang")]

/-! ## Diagnostic printing -/

/-- Verb `%v` of `fmt` applied to a payload. -/
def fmtValue : Value → String
  | Value.nil => "<nil>"
  | Value.str s => s
  | Value.int n => toString n

/-- Loop of `PrintCache`.  Walking `Front()`, `Next()`, ... until nil visits the linked
elements front to back, that is `order`; each step asserts the element holds a
`*CacheEntry` (`none` is the panic) and prints `"(%s: %v) "`. -/
def printEntries (l : GoList) : List Element → Option String
  | [] => some ""
  | e :: es =>
    match asEntry l e with
    | some entry =>
      (printEntries l es).map
        (fun rest => "(" ++ entry.key ++ ": " ++ fmtValue entry.value ++ ") " ++ rest)
    | none => none

/-- Method `PrintCache`: the text written to standard output and the cache afterwards. -/
def PrintCache (lru : LRUCache) : Option (String × LRUCache) :=
  match printEntries lru.list lru.list.order with
  | some body =>
    some ("LRU Cache (Capacity: " ++ toString lru.capacity ++ ", Size: " ++
      toString lru.list.Len ++ "): [" ++ body ++ "]\n", lru)
  | none => none

/-- Text that reports the given entries in the given order, as `"(key: value) "` each. -/
def renderEntries : List CacheEntry → String
  | [] => ""
  | c :: cs => "(" ++ c.key ++ ": " ++ fmtValue c.value ++ ") " ++ renderEntries cs

/-! ## Association-list model (specification side) -/

/-- Model `Get` on a list of pairs, head to tail: scan for the first pair with key `k`;
when there is one, move it to the front and return its value with `true`; otherwise
return `(nil, false)` and the list as it was. -/
def modelGet (m : List CacheEntry) (k : String) : (Value × Bool) × List CacheEntry :=
  match m.find? (fun c => decide (c.key = k)) with
  | some c => ((c.value, true), c :: m.erase c)
  | none => ((Value.nil, false), m)

/-- Model `Set` on a list of pairs: when `k` is present replace its pair by `(k, v)` and
move it to the front; otherwise cons `(k, v)` and drop the last pair when the length
then exceeds the capacity. -/
def modelSet (capacity : Int) (m : List CacheEntry) (k : String) (v : Value) :
    List CacheEntry :=
  match m.find? (fun c => decide (c.key = k)) with
  | some c => ⟨k, v⟩ :: m.erase c
  | none =>
    if (((⟨k, v⟩ :: m).length : Nat) : Int) > capacity then (⟨k, v⟩ :: m).dropLast
    else ⟨k, v⟩ :: m

/-- Model run: the results of the `Get` calls, in call order, and the final list. -/
def modelRun (capacity : Int) :
    List CacheEntry → List Op → List (Value × Bool) × List CacheEntry
  | m, [] => ([], m)
  | m, Op.get k :: ops =>
    ((modelGet m k).1 :: (modelRun capacity (modelGet m k).2 ops).1,
      (modelRun capacity (modelGet m k).2 ops).2)
  | m, Op.set k v :: ops => modelRun capacity (modelSet capacity m k v) ops

/-- Implementation run that also collects the results of the `Get` calls. -/
def runResults : LRUCache → List Op → Option (List (Value × Bool) × LRUCache)
  | s, [] => some ([], s)
  | s, Op.get k :: ops =>
    match Get s k with
    | some r => (runResults r.2 ops).map (fun p => (r.1 :: p.1, p.2))
    | none => none
  | s, Op.set k v :: ops =>
    match Set s k v with
    | some s' => runResults s' ops
    | none => none

/-! ## Keys set and keys resident -/

/-- The keys passed to `Set` so far and the resident keys: every resident key was set,
and as long as the cache is not full every key that was set is resident. -/
def Filled (s : LRUCache) (ks : List String) : Prop :=
  (∀ x ∈ s.keys, x ∈ ks) ∧
  ((s.entries.length : Int) < s.capacity → ∀ x ∈ ks, x ∈ s.keys) ∧
  (s.entries.length : Int) ≤ s.capacity

/-! ## Lemmas on the index -/

theorem mapLookup_isSome_iff (m : List (String × Element)) (k : String) :
    (∃ e, mapLookup m k = some e) ↔ k ∈ m.map Prod.fst := by
  induction m with
  | nil => simp [mapLookup]
  | cons p m ih =>
    obtain ⟨k', e'⟩ := p
    by_cases h : k' = k
    · simp [mapLookup, h]
    · simp only [mapLookup, h, if_false, ih, List.map_cons, List.mem_cons]
      constructor
      · intro hm; exact Or.inr hm
      · rintro (hk | hm)
        · exact absurd hk.symm h
        · exact hm

theorem mapLookup_eq_none_iff (m : List (String × Element)) (k : String) :
    mapLookup m k = none ↔ k ∉ m.map Prod.fst := by
  rw [← mapLookup_isSome_iff]
  cases mapLookup m k <;> simp

theorem mapLookup_mem (m : List (String × Element)) (k : String) (e : Element)
    (h : mapLookup m k = some e) : (k, e) ∈ m := by
  induction m with
  | nil => simp [mapLookup] at h
  | cons p m ih =>
    obtain ⟨k', e'⟩ := p
    by_cases hk : k' = k
    · simp [mapLookup, hk] at h
      simp [hk, h]
    · simp only [mapLookup, hk, if_false] at h
      exact List.mem_cons_of_mem _ (ih h)

theorem mapLookup_mapDelete (m : List (String × Element)) (k k' : String) :
    mapLookup (mapDelete m k) k' = if k' = k then none else mapLookup m k' := by
  induction m with
  | nil => simp [mapDelete, mapLookup]
  | cons p m ih =>
    obtain ⟨k₁, e₁⟩ := p
    unfold mapDelete at ih ⊢
    by_cases h1 : k₁ = k
    · subst h1
      simp only [List.filter_cons, ne_eq, not_true_eq_false, decide_False, Bool.false_eq_true,
        if_false, ih, mapLookup]
      by_cases h2 : k' = k₁
      · simp [h2]
      · have : ¬ k₁ = k' := fun h => h2 h.symm
        simp [h2, this]
    · simp only [List.filter_cons, ne_eq, h1, not_false_eq_true, decide_True, if_true, mapLookup, ih]
      by_cases h2 : k₁ = k'
      · subst h2
        simp [h1]
      · simp [h2]

theorem mapLookup_mapStore (m : List (String × Element)) (k k' : String) (e : Element) :
    mapLookup (mapStore m k e) k' = if k' = k then some e else mapLookup m k' := by
  unfold mapStore
  by_cases h : k = k'
  · subst h
    simp [mapLookup]
  · have h' : ¬ k' = k := fun h2 => h h2.symm
    simp [mapLookup, h, h', mapLookup_mapDelete]

theorem mapDelete_of_absent (m : List (String × Element)) (k : String)
    (h : k ∉ m.map Prod.fst) : mapDelete m k = m := by
  unfold mapDelete
  rw [List.filter_eq_self]
  intro p hp
  have : p.1 ≠ k := by
    intro hk
    exact h (hk ▸ List.mem_map_of_mem Prod.fst hp)
  simpa using this

theorem mapDelete_keys (m : List (String × Element)) (k : String) :
    (mapDelete m k).map Prod.fst = (m.map Prod.fst).filter (fun x => decide (x ≠ k)) := by
  unfold mapDelete
  induction m with
  | nil => rfl
  | cons p m ih =>
    by_cases h : p.1 = k <;> simp [List.filter_cons, h] <;> simpa using ih

theorem mapDelete_nodup (m : List (String × Element)) (k : String)
    (h : (m.map Prod.fst).Nodup) : ((mapDelete m k).map Prod.fst).Nodup := by
  rw [mapDelete_keys]
  exact h.filter _

theorem mapStore_nodup (m : List (String × Element)) (k : String) (e : Element)
    (h : (m.map Prod.fst).Nodup) : ((mapStore m k e).map Prod.fst).Nodup := by
  unfold mapStore
  rw [List.map_cons, List.nodup_cons]
  refine ⟨?_, mapDelete_nodup m k h⟩
  rw [mapDelete_keys]
  simp

theorem mapDelete_length (m : List (String × Element)) (k : String)
    (h : (m.map Prod.fst).Nodup) (hk : k ∈ m.map Prod.fst) :
    (mapDelete m k).length + 1 = m.length := by
  induction m with
  | nil => simp at hk
  | cons p m ih =>
    rw [List.map_cons, List.nodup_cons] at h
    by_cases hp : p.1 = k
    · have hk' : k ∉ m.map Prod.fst := hp ▸ h.1
      have : mapDelete (p :: m) k = mapDelete m k := by
        simp [mapDelete, List.filter_cons, hp]
      rw [this, mapDelete_of_absent m k hk']
      simp
    · have hk' : k ∈ m.map Prod.fst := by
        rw [List.map_cons, List.mem_cons] at hk
        rcases hk with hk | hk
        · exact absurd hk.symm hp
        · exact hk
      have : mapDelete (p :: m) k = p :: mapDelete m k := by
        simp [mapDelete, List.filter_cons, hp]
      rw [this, List.length_cons, ih h.2 hk', List.length_cons]

/-! ## Lemmas on the recency list -/

theorem MoveToFront_of_mem (l : GoList) (e : Element) (h : e ∈ l.order) :
    l.MoveToFront e = { heap := l.heap, order := e :: l.order.erase e } := by
  unfold GoList.MoveToFront
  by_cases hh : l.order.head? = some e
  · obtain ⟨heap, order⟩ := l
    cases order with
    | nil => simp at h
    | cons x xs =>
      simp only [List.head?_cons, Option.some.injEq] at hh
      subst hh
      simp
  · simp [h, hh]

theorem asEntry_heap (l l' : GoList) (e : Element) (h : l'.heap = l.heap) :
    asEntry l' e = asEntry l e := by
  simp [asEntry, GoList.load, h]

theorem asEntry_lt (l : GoList) (e : Element) (c : CacheEntry) (h : asEntry l e = some c) :
    e < l.heap.length := by
  unfold asEntry GoList.load at h
  by_contra hlt
  rw [List.getElem?_eq_none (Nat.le_of_not_lt hlt)] at h
  simp at h

theorem asEntry_store_same (l : GoList) (e : Element) (c : CacheEntry)
    (h : e < l.heap.length) : asEntry (l.store e (Any.entry c)) e = some c := by
  simp [asEntry, GoList.load, GoList.store, List.getElem?_set, h]

theorem asEntry_store_other (l : GoList) (e e' : Element) (v : Any) (h : e' ≠ e) :
    asEntry (l.store e v) e' = asEntry l e' := by
  have : ¬ e = e' := fun h2 => h h2.symm
  simp [asEntry, GoList.load, GoList.store, List.getElem?_set, this]

theorem asEntry_push_old (l : GoList) (v : Any) (e : Element) (h : e < l.heap.length) :
    asEntry (l.PushFront v).2 e = asEntry l e := by
  simp [asEntry, GoList.load, GoList.PushFront, List.getElem?_append_left, h]

theorem asEntry_push_new (l : GoList) (c : CacheEntry) :
    asEntry (l.PushFront (Any.entry c)).2 l.heap.length = some c := by
  simp [asEntry, GoList.load, GoList.PushFront]

theorem filterMap_congr_mem {α β : Type} (f g : α → Option β) (xs : List α)
    (h : ∀ x ∈ xs, f x = g x) : xs.filterMap f = xs.filterMap g := by
  induction xs with
  | nil => rfl
  | cons x xs ih =>
    have hx := h x (List.mem_cons_self _ _)
    have ih' := ih (fun y hy => h y (List.mem_cons_of_mem _ hy))
    simp [List.filterMap_cons, hx, ih']

theorem filterMap_filter_of_iff {α β : Type} (f : α → Option β) (p : α → Bool) (q : β → Bool)
    (xs : List α) (h : ∀ x ∈ xs, ∀ y, f x = some y → p x = q y) :
    (xs.filter p).filterMap f = (xs.filterMap f).filter q := by
  induction xs with
  | nil => rfl
  | cons x xs ih =>
    have ih' := ih (fun y hy => h y (List.mem_cons_of_mem _ hy))
    have hx := h x (List.mem_cons_self _ _)
    cases hf : f x with
    | none =>
      by_cases hp : p x = true
      · simp [List.filter_cons, hp, List.filterMap_cons, hf, ih']
      · simp [List.filter_cons, hp, List.filterMap_cons, hf, ih']
    | some y =>
      have hxy := hx y hf
      by_cases hp : p x = true
      · have hq : q y = true := by rw [← hxy]; exact hp
        simp [List.filter_cons, hp, hq, List.filterMap_cons, hf, ih']
      · have hq : ¬ q y = true := by rw [← hxy]; exact hp
        simp [List.filter_cons, hp, hq, List.filterMap_cons, hf, ih']

theorem filterMap_dropLast {α β : Type} (f : α → Option β) (xs : List α)
    (h : ∀ x ∈ xs, ∃ y, f x = some y) :
    (xs.dropLast).filterMap f = (xs.filterMap f).dropLast := by
  induction xs with
  | nil => rfl
  | cons x xs ih =>
    have ih' := ih (fun y hy => h y (List.mem_cons_of_mem _ hy))
    obtain ⟨y, hy⟩ := h x (List.mem_cons_self _ _)
    cases xs with
    | nil => simp [hy]
    | cons z zs =>
      obtain ⟨w, hw⟩ := h z (by simp)
      rw [List.dropLast_cons₂, List.filterMap_cons, hy]
      simp only [List.filterMap_cons, hy, hw] at ih' ⊢
      rw [List.dropLast_cons₂, ← ih']

theorem filterMap_length_of_some {α β : Type} (f : α → Option β) (xs : List α)
    (h : ∀ x ∈ xs, ∃ y, f x = some y) : (xs.filterMap f).length = xs.length := by
  induction xs with
  | nil => rfl
  | cons x xs ih =>
    obtain ⟨y, hy⟩ := h x (List.mem_cons_self _ _)
    simp [List.filterMap_cons, hy, ih (fun y hy => h y (List.mem_cons_of_mem _ hy))]

theorem erase_getLast_eq_dropLast (xs : List Nat) (a : Nat) (hn : xs.Nodup)
    (h : xs.getLast? = some a) : xs.erase a = xs.dropLast := by
  induction xs with
  | nil => simp at h
  | cons x xs ih =>
    cases xs with
    | nil =>
      simp at h
      subst h
      simp
    | cons z zs =>
      rw [List.getLast?_cons_cons] at h
      have hmem : a ∈ z :: zs := List.mem_of_getLast?_eq_some h
      rw [List.nodup_cons] at hn
      have hne : x ≠ a := fun hxa => hn.1 (hxa ▸ hmem)
      rw [List.erase_cons_tail (by simpa using hne), ih hn.2 h, List.dropLast_cons₂]

/-! ## Consequences of the representation invariant -/

theorem mem_entries_iff (s : LRUCache) (c : CacheEntry) :
    c ∈ s.entries ↔ ∃ a ∈ s.list.order, asEntry s.list a = some c := by
  simp [LRUCache.entries, List.mem_filterMap]

theorem WF.entries_length {s : LRUCache} (hs : WF s) :
    s.entries.length = s.list.order.length :=
  filterMap_length_of_some _ _ (fun a ha => by
    obtain ⟨c, hc, _⟩ := hs.linked a ha
    exact ⟨c, hc⟩)

theorem WF.key_inj {s : LRUCache} (hs : WF s) {a b : Element} {c d : CacheEntry}
    (ha : a ∈ s.list.order) (hb : b ∈ s.list.order)
    (hc : asEntry s.list a = some c) (hd : asEntry s.list b = some d)
    (hk : c.key = d.key) : a = b := by
  obtain ⟨c', hc', hl⟩ := hs.linked a ha
  obtain ⟨d', hd', hl'⟩ := hs.linked b hb
  rw [hc] at hc'; rw [hd] at hd'
  cases hc'; cases hd'
  rw [hk, hl'] at hl
  exact (Option.some.inj hl).symm

theorem WF.mem_keys_iff {s : LRUCache} (hs : WF s) (k : String) :
    k ∈ s.keys ↔ ∃ a, mapLookup s.cache k = some a := by
  unfold LRUCache.keys
  rw [List.mem_map]
  constructor
  · rintro ⟨c, hc, rfl⟩
    obtain ⟨a, ha, hac⟩ := (mem_entries_iff s c).1 hc
    obtain ⟨c', hc', hl⟩ := hs.linked a ha
    rw [hac] at hc'; cases hc'
    exact ⟨a, hl⟩
  · rintro ⟨a, ha⟩
    obtain ⟨hmem, c, hc, hk⟩ := hs.indexed k a ha
    exact ⟨c, (mem_entries_iff s c).2 ⟨a, hmem, hc⟩, hk⟩

theorem WF.mem_keys_iff_index {s : LRUCache} (hs : WF s) (k : String) :
    k ∈ s.keys ↔ k ∈ s.indexKeys := by
  rw [hs.mem_keys_iff, mapLookup_isSome_iff]
  rfl

theorem nodup_filterMap_of_injOn {α β : Type} (f : α → Option β) (xs : List α)
    (hn : xs.Nodup)
    (h : ∀ x ∈ xs, ∀ y ∈ xs, ∀ b, f x = some b → f y = some b → x = y) :
    (xs.filterMap f).Nodup := by
  induction xs with
  | nil => simp
  | cons x xs ih =>
    rw [List.nodup_cons] at hn
    have ih' := ih hn.2 (fun a ha b hb => h a (List.mem_cons_of_mem _ ha) b (List.mem_cons_of_mem _ hb))
    cases hf : f x with
    | none => simpa [List.filterMap_cons, hf] using ih'
    | some b =>
      rw [List.filterMap_cons, hf]
      refine List.nodup_cons.2 ⟨?_, ih'⟩
      intro hb
      obtain ⟨y, hy, hfy⟩ := List.mem_filterMap.1 hb
      have := h x (List.mem_cons_self _ _) y (List.mem_cons_of_mem _ hy) b hf hfy
      exact hn.1 (this ▸ hy)

theorem WF.keys_nodup {s : LRUCache} (hs : WF s) : s.keys.Nodup := by
  have hrw : s.keys = s.list.order.filterMap (fun a => (asEntry s.list a).map CacheEntry.key) := by
    unfold LRUCache.keys LRUCache.entries
    rw [List.map_filterMap]
  rw [hrw]
  apply nodup_filterMap_of_injOn _ _ hs.nodup
  intro a ha b hb k hka hkb
  obtain ⟨c, hc, _⟩ := hs.linked a ha
  obtain ⟨d, hd, _⟩ := hs.linked b hb
  rw [hc] at hka; rw [hd] at hkb
  simp only [Option.map_some', Option.some.injEq] at hka hkb
  exact hs.key_inj ha hb hc hd (hka.trans hkb.symm)

theorem WF.entries_nodup {s : LRUCache} (hs : WF s) : s.entries.Nodup :=
  List.Nodup.of_map _ hs.keys_nodup

theorem WF.index_size {s : LRUCache} (hs : WF s) : s.cache.length = s.entries.length := by
  rw [hs.entries_length, hs.size]

/-- Entries behind the element `a` once it is unlinked: all entries with another key. -/
theorem WF.entries_erase {s : LRUCache} (hs : WF s) {a : Element} {c : CacheEntry}
    (ha : a ∈ s.list.order) (hc : asEntry s.list a = some c) :
    (s.list.order.erase a).filterMap (asEntry s.list) =
      s.entries.filter (fun x => decide (x.key ≠ c.key)) := by
  rw [hs.nodup.erase_eq_filter]
  unfold LRUCache.entries
  apply filterMap_filter_of_iff
  intro b hb d hd
  by_cases hba : b = a
  · subst hba
    rw [hc] at hd; cases hd
    simp
  · have hk : d.key ≠ c.key := fun hk => hba (hs.key_inj hb ha hd hc hk)
    simp [hba, hk]

theorem WF_New (capacity : Int) : WF (NewLRUCache capacity) := by
  constructor <;> simp [NewLRUCache, GoList.New, mapLookup]

/-! ## Effect of each list operation on the invariant -/

/-- Relinking a linked element at the front keeps the invariant. -/
theorem WF.touch {s : LRUCache} (hs : WF s) {a : Element} (ha : a ∈ s.list.order) :
    WF { s with list := { heap := s.list.heap, order := a :: s.list.order.erase a } } := by
  have hmem : ∀ b, b ∈ a :: s.list.order.erase a ↔ b ∈ s.list.order := by
    intro b
    by_cases hba : b = a
    · subst hba; simp [ha]
    · simp [hba, List.mem_erase_of_ne hba]
  constructor
  · exact List.nodup_cons.2 ⟨hs.nodup.not_mem_erase, hs.nodup.erase a⟩
  · intro b hb
    exact hs.linked b ((hmem b).1 hb)
  · intro k b hb
    obtain ⟨h1, h2⟩ := hs.indexed k b hb
    exact ⟨(hmem b).2 h1, h2⟩
  · exact hs.keysNodup
  · show s.cache.length = (a :: s.list.order.erase a).length
    rw [List.length_cons, List.length_erase_of_mem ha, hs.size]
    have : 0 < s.list.order.length := List.length_pos_of_mem ha
    omega

theorem WF.entries_touch {s : LRUCache} (hs : WF s) {a : Element} {c : CacheEntry}
    (ha : a ∈ s.list.order) (hc : asEntry s.list a = some c) :
    LRUCache.entries { s with list := { heap := s.list.heap, order := a :: s.list.order.erase a } } =
      c :: s.entries.filter (fun x => decide (x.key ≠ c.key)) := by
  have h1 : ∀ b, asEntry { heap := s.list.heap, order := a :: s.list.order.erase a } b =
      asEntry s.list b := fun b => asEntry_heap _ _ b rfl
  show List.filterMap (asEntry _) (a :: s.list.order.erase a) = _
  rw [List.filterMap_cons, h1 a, hc]
  simp only
  rw [filterMap_congr_mem _ (asEntry s.list) _ (fun b _ => h1 b), hs.entries_erase ha hc]

/-- Overwriting the payload of a linked entry keeps the invariant. -/
theorem WF.store {s : LRUCache} (hs : WF s) {a : Element} {c : CacheEntry}
    (ha : a ∈ s.list.order) (hc : asEntry s.list a = some c) (v : Value) :
    WF { s with list := s.list.store a (Any.entry { c with value := v }) } := by
  have hlt := asEntry_lt _ _ _ hc
  constructor
  · exact hs.nodup
  · intro b hb
    have hb' : b ∈ s.list.order := hb
    by_cases hba : b = a
    · subst hba
      obtain ⟨c', hc', hl⟩ := hs.linked b hb'
      rw [hc] at hc'; cases hc'
      exact ⟨_, asEntry_store_same _ _ _ hlt, hl⟩
    · obtain ⟨d, hd, hl⟩ := hs.linked b hb'
      exact ⟨d, (asEntry_store_other _ _ _ _ hba).trans hd, hl⟩
  · intro k b hb
    obtain ⟨h1, d, hd, hk⟩ := hs.indexed k b hb
    refine ⟨h1, ?_⟩
    by_cases hba : b = a
    · subst hba
      rw [hc] at hd; cases hd
      exact ⟨_, asEntry_store_same _ _ _ hlt, hk⟩
    · exact ⟨d, (asEntry_store_other _ _ _ _ hba).trans hd, hk⟩
  · exact hs.keysNodup
  · exact hs.size

/-- Pushing a fresh entry under a key absent from the index keeps the invariant. -/
theorem WF.push {s : LRUCache} (hs : WF s) {k : String} (hk : mapLookup s.cache k = none)
    (v : Value) :
    WF { s with cache := mapStore s.cache k (s.list.PushFront (Any.entry ⟨k, v⟩)).1,
                list := (s.list.PushFront (Any.entry ⟨k, v⟩)).2 } := by
  have hold : ∀ b ∈ s.list.order, b < s.list.heap.length := by
    intro b hb
    obtain ⟨c, hc, _⟩ := hs.linked b hb
    exact asEntry_lt _ _ _ hc
  have hfresh : s.list.heap.length ∉ s.list.order := fun h => Nat.lt_irrefl _ (hold _ h)
  have habs : k ∉ s.cache.map Prod.fst := (mapLookup_eq_none_iff _ _).1 hk
  constructor
  · exact List.nodup_cons.2 ⟨hfresh, hs.nodup⟩
  · intro b hb
    have hb' : b = s.list.heap.length ∨ b ∈ s.list.order := List.mem_cons.1 hb
    rcases hb' with rfl | hb'
    · refine ⟨⟨k, v⟩, asEntry_push_new _ _, ?_⟩
      show mapLookup (mapStore s.cache k s.list.heap.length) k = _
      rw [mapLookup_mapStore]; simp
    · obtain ⟨c, hc, hl⟩ := hs.linked b hb'
      refine ⟨c, (asEntry_push_old _ _ _ (hold b hb')).trans hc, ?_⟩
      show mapLookup (mapStore s.cache k s.list.heap.length) c.key = _
      rw [mapLookup_mapStore]
      have : c.key ≠ k := by
        intro h; rw [h, hk] at hl; cases hl
      simp [this, hl]
  · intro k' b hb
    have hb' : mapLookup (mapStore s.cache k s.list.heap.length) k' = some b := hb
    rw [mapLookup_mapStore] at hb'
    by_cases hkk : k' = k
    · subst hkk
      simp at hb'
      subst hb'
      exact ⟨List.mem_cons_self _ _, ⟨k', v⟩, asEntry_push_new _ _, rfl⟩
    · simp [hkk] at hb'
      obtain ⟨h1, d, hd, hkd⟩ := hs.indexed k' b hb'
      exact ⟨List.mem_cons_of_mem _ h1, d, (asEntry_push_old _ _ _ (hold b h1)).trans hd, hkd⟩
  · exact mapStore_nodup _ _ _ hs.keysNodup
  · show (mapStore s.cache k s.list.heap.length).length = (s.list.heap.length :: s.list.order).length
    unfold mapStore
    rw [mapDelete_of_absent _ _ habs, List.length_cons, List.length_cons, hs.size]

theorem WF.entries_push {s : LRUCache} (hs : WF s) (k : String) (v : Value)
    (m : List (String × Element)) :
    LRUCache.entries { s with cache := m, list := (s.list.PushFront (Any.entry ⟨k, v⟩)).2 } =
      ⟨k, v⟩ :: s.entries := by
  have hold : ∀ b ∈ s.list.order, b < s.list.heap.length := by
    intro b hb
    obtain ⟨c, hc, _⟩ := hs.linked b hb
    exact asEntry_lt _ _ _ hc
  show List.filterMap (asEntry (s.list.PushFront (Any.entry ⟨k, v⟩)).2)
      (s.list.heap.length :: s.list.order) = _
  rw [List.filterMap_cons, asEntry_push_new]
  simp only
  rw [filterMap_congr_mem _ (asEntry s.list) _ (fun b hb => asEntry_push_old _ _ _ (hold b hb))]
  rfl

/-- Unlinking an element and deleting its key from the index keeps the invariant. -/
theorem WF.remove {s : LRUCache} (hs : WF s) {a : Element} {c : CacheEntry}
    (ha : a ∈ s.list.order) (hc : asEntry s.list a = some c) :
    WF { s with cache := mapDelete s.cache c.key,
                list := { heap := s.list.heap, order := s.list.order.erase a } } := by
  obtain ⟨c', hc', hl⟩ := hs.linked a ha
  rw [hc] at hc'; cases hc'
  have h1 : ∀ b, asEntry { heap := s.list.heap, order := s.list.order.erase a } b =
      asEntry s.list b := fun b => asEntry_heap _ _ b rfl
  constructor
  · exact hs.nodup.erase a
  · intro b hb
    have hb' : b ∈ s.list.order.erase a := hb
    have hbm : b ∈ s.list.order := List.mem_of_mem_erase hb'
    have hba : b ≠ a := fun h => hs.nodup.not_mem_erase (h ▸ hb')
    obtain ⟨d, hd, hld⟩ := hs.linked b hbm
    refine ⟨d, (h1 b).trans hd, ?_⟩
    show mapLookup (mapDelete s.cache c.key) d.key = _
    rw [mapLookup_mapDelete]
    have : d.key ≠ c.key := fun hk => hba (hs.key_inj hbm ha hd hc hk)
    simp [this, hld]
  · intro k b hb
    have hb' : mapLookup (mapDelete s.cache c.key) k = some b := hb
    rw [mapLookup_mapDelete] at hb'
    by_cases hk : k = c.key
    · simp [hk] at hb'
    · simp [hk] at hb'
      obtain ⟨hbm, d, hd, hkd⟩ := hs.indexed k b hb'
      have hba : b ≠ a := by
        intro h; subst h
        rw [hc] at hd; cases hd
        exact hk hkd.symm
      exact ⟨(List.mem_erase_of_ne hba).2 hbm, d, (h1 b).trans hd, hkd⟩
  · exact mapDelete_nodup _ _ hs.keysNodup
  · show (mapDelete s.cache c.key).length = (s.list.order.erase a).length
    have hmem : c.key ∈ s.cache.map Prod.fst := (mapLookup_isSome_iff _ _).1 ⟨a, hl⟩
    have := mapDelete_length _ _ hs.keysNodup hmem
    rw [List.length_erase_of_mem ha]
    have h2 := hs.size
    omega

theorem WF.entries_remove_back {s : LRUCache} (hs : WF s) {a : Element}
    (ha : s.list.order.getLast? = some a) (m : List (String × Element)) :
    LRUCache.entries
      { s with cache := m, list := { heap := s.list.heap, order := s.list.order.erase a } } =
      s.entries.dropLast := by
  have h1 : ∀ b, asEntry { heap := s.list.heap, order := s.list.order.erase a } b =
      asEntry s.list b := fun b => asEntry_heap _ _ b rfl
  show List.filterMap (asEntry _) (s.list.order.erase a) = _
  rw [filterMap_congr_mem _ (asEntry s.list) _ (fun b _ => h1 b),
    erase_getLast_eq_dropLast _ _ hs.nodup ha]
  exact filterMap_dropLast _ _ (fun b hb => by
    obtain ⟨c, hc, _⟩ := hs.linked b hb
    exact ⟨c, hc⟩)

/-! ## The two operations on states satisfying the invariant -/

theorem Get_absent {s : LRUCache} (hs : WF s) {k : String} (hk : k ∉ s.keys) :
    Get s k = some ((Value.nil, false), s) := by
  have h : mapLookup s.cache k = none := by
    cases hl : mapLookup s.cache k with
    | none => rfl
    | some a => exact absurd ((hs.mem_keys_iff k).2 ⟨a, hl⟩) hk
  simp [Get, h]

theorem Get_resident {s : LRUCache} (hs : WF s) {k : String} (hk : k ∈ s.keys) :
    ∃ c s', c ∈ s.entries ∧ c.key = k ∧ Get s k = some ((c.value, true), s') ∧ WF s' ∧
      s'.capacity = s.capacity ∧ s'.cache = s.cache ∧ s'.list.heap = s.list.heap ∧
      s'.entries = c :: s.entries.filter (fun x => decide (x.key ≠ k)) := by
  obtain ⟨a, hl⟩ := (hs.mem_keys_iff k).1 hk
  obtain ⟨ha, c, hc, hck⟩ := hs.indexed k a hl
  refine ⟨c, { s with list := { heap := s.list.heap, order := a :: s.list.order.erase a } },
    (mem_entries_iff s c).2 ⟨a, ha, hc⟩, hck, ?_, hs.touch ha, rfl, rfl, rfl, ?_⟩
  · unfold Get
    simp only [hl]
    have hc' : asEntry { heap := s.list.heap, order := a :: s.list.order.erase a } a = some c :=
      (asEntry_heap _ s.list a rfl).trans hc
    rw [MoveToFront_of_mem _ _ ha]
    simp only [hc']
  · rw [hs.entries_touch ha hc, hck]

theorem Set_resident {s : LRUCache} (hs : WF s) {k : String} (hk : k ∈ s.keys) (v : Value) :
    ∃ s', Set s k v = some s' ∧ WF s' ∧ s'.capacity = s.capacity ∧ s'.cache = s.cache ∧
      s'.entries = ⟨k, v⟩ :: s.entries.filter (fun x => decide (x.key ≠ k)) := by
  obtain ⟨a, hl⟩ := (hs.mem_keys_iff k).1 hk
  obtain ⟨ha, c, hc, hck⟩ := hs.indexed k a hl
  subst hck
  have hlt := asEntry_lt _ _ _ hc
  have hs1 := hs.store ha hc v
  have ha1 : a ∈ (s.list.store a (Any.entry { c with value := v })).order := ha
  have hc1 : asEntry (s.list.store a (Any.entry { c with value := v })) a =
      some { c with value := v } := asEntry_store_same _ _ _ hlt
  refine ⟨_, ?_, hs1.touch ha1, rfl, rfl, ?_⟩
  · unfold Set
    simp only [hl, hc]
    rw [MoveToFront_of_mem _ _ ha1]
  · rw [hs1.entries_touch ha1 hc1]
    congr 1
    -- the other entries are read from an unchanged part of the arena
    have e1 := hs1.entries_erase ha1 hc1
    have e2 := hs.entries_erase ha hc
    refine e1.symm.trans (Eq.trans ?_ e2)
    apply filterMap_congr_mem
    intro b hb
    have hba : b ≠ a := fun h => hs.nodup.not_mem_erase (h ▸ hb)
    exact asEntry_store_other _ _ _ _ hba

theorem Set_absent {s : LRUCache} (hs : WF s) {k : String} (hk : k ∉ s.keys) (v : Value) :
    ∃ s', Set s k v = some s' ∧ WF s' ∧ s'.capacity = s.capacity ∧
      s'.entries = (if ((s.entries.length + 1 : Nat) : Int) > s.capacity
        then (⟨k, v⟩ :: s.entries).dropLast else ⟨k, v⟩ :: s.entries) := by
  have hl : mapLookup s.cache k = none := by
    cases hl : mapLookup s.cache k with
    | none => rfl
    | some a => exact absurd ((hs.mem_keys_iff k).2 ⟨a, hl⟩) hk
  have hp := hs.push hl v
  have hep := hs.entries_push k v (mapStore s.cache k (s.list.PushFront (Any.entry ⟨k, v⟩)).1)
  have hlen : (s.list.PushFront (Any.entry ⟨k, v⟩)).2.Len = s.entries.length + 1 := by
    rw [hs.entries_length]; rfl
  unfold Set
  simp only [hl, hlen]
  by_cases hcap : ((s.entries.length + 1 : Nat) : Int) > s.capacity
  · simp only [hcap, if_true]
    obtain ⟨a, ha⟩ : ∃ a, (s.list.PushFront (Any.entry ⟨k, v⟩)).2.Back = some a := by
      show ∃ a, (s.list.heap.length :: s.list.order).getLast? = some a
      rw [List.getLast?_eq_getLast _ (List.cons_ne_nil _ _)]
      exact ⟨_, rfl⟩
    have ham : a ∈ (s.list.PushFront (Any.entry ⟨k, v⟩)).2.order :=
      List.mem_of_getLast?_eq_some ha
    obtain ⟨c, hc, _⟩ := hp.linked a ham
    simp only [ha, hc]
    have hrm : (s.list.PushFront (Any.entry ⟨k, v⟩)).2.Remove a =
        { heap := (s.list.PushFront (Any.entry ⟨k, v⟩)).2.heap,
          order := (s.list.PushFront (Any.entry ⟨k, v⟩)).2.order.erase a } := by
      unfold GoList.Remove
      rw [if_pos ham]
    rw [hrm]
    refine ⟨_, rfl, hp.remove ham hc, rfl, ?_⟩
    rw [← hep]
    exact hp.entries_remove_back ha _
  · simp only [hcap, if_false]
    exact ⟨_, rfl, hp, rfl, hep⟩

/-! ## Call sequences -/

theorem Get_total {s : LRUCache} (hs : WF s) (k : String) :
    ∃ r s', Get s k = some (r, s') ∧ WF s' ∧ s'.capacity = s.capacity ∧
      s'.entries.length = s.entries.length := by
  by_cases hk : k ∈ s.keys
  · obtain ⟨c, s', _, _, hg, hw, hcap, hcache, _, _⟩ := Get_resident hs hk
    refine ⟨_, s', hg, hw, hcap, ?_⟩
    rw [← hw.index_size, ← hs.index_size, hcache]
  · exact ⟨_, s, Get_absent hs hk, hs, rfl, rfl⟩

theorem Set_total {s : LRUCache} (hs : WF s) (k : String) (v : Value) :
    ∃ s', Set s k v = some s' ∧ WF s' ∧ s'.capacity = s.capacity := by
  by_cases hk : k ∈ s.keys
  · obtain ⟨s', h, hw, hcap, _⟩ := Set_resident hs hk v
    exact ⟨s', h, hw, hcap⟩
  · obtain ⟨s', h, hw, hcap, _⟩ := Set_absent hs hk v
    exact ⟨s', h, hw, hcap⟩

theorem step_total {s : LRUCache} (hs : WF s) (op : Op) :
    ∃ s', step s op = some s' ∧ WF s' ∧ s'.capacity = s.capacity := by
  cases op with
  | get k =>
    obtain ⟨r, s', h, hw, hcap, _⟩ := Get_total hs k
    exact ⟨s', by simp [step, h], hw, hcap⟩
  | set k v => exact Set_total hs k v

theorem run_total {s : LRUCache} (hs : WF s) (ops : List Op) :
    ∃ s', run s ops = some s' ∧ WF s' ∧ s'.capacity = s.capacity := by
  induction ops generalizing s with
  | nil => exact ⟨s, rfl, hs, rfl⟩
  | cons op ops ih =>
    obtain ⟨s₁, h₁, hw₁, hc₁⟩ := step_total hs op
    obtain ⟨s₂, h₂, hw₂, hc₂⟩ := ih hw₁
    exact ⟨s₂, by simp [run, h₁, h₂], hw₂, hc₂.trans hc₁⟩

theorem run_append (s : LRUCache) (xs ys : List Op) :
    run s (xs ++ ys) = (run s xs).bind (fun s' => run s' ys) := by
  induction xs generalizing s with
  | nil => rfl
  | cons x xs ih =>
    simp only [List.cons_append, run]
    cases step s x with
    | none => rfl
    | some s₁ => simpa using ih s₁

theorem Reachable.wf {capacity : Int} {s : LRUCache} (h : Reachable capacity s) : WF s := by
  obtain ⟨ops, hr⟩ := h
  obtain ⟨s', h', hw, _⟩ := run_total (WF_New capacity) ops
  rw [hr] at h'; cases h'
  exact hw

theorem Reachable.capacity_eq {capacity : Int} {s : LRUCache} (h : Reachable capacity s) :
    s.capacity = capacity := by
  obtain ⟨ops, hr⟩ := h
  obtain ⟨s', h', _, hc⟩ := run_total (WF_New capacity) ops
  rw [hr] at h'; cases h'
  exact hc

theorem Reachable.step {capacity : Int} {s s' : LRUCache} (h : Reachable capacity s)
    (op : Op) (hstep : step s op = some s') : Reachable capacity s' := by
  obtain ⟨ops, hr⟩ := h
  refine ⟨ops ++ [op], ?_⟩
  rw [run_append, hr]
  simp [run, hstep]

/-- The size bound is kept by every call. -/
theorem step_bounded {s s' : LRUCache} (hs : WF s)
    (hb : (s.entries.length : Int) ≤ s.capacity) (op : Op) (hstep : step s op = some s') :
    (s'.entries.length : Int) ≤ s'.capacity := by
  cases op with
  | get k =>
    obtain ⟨r, s₁, h, _, hc, hl⟩ := Get_total hs k
    simp only [step, h, Option.map_some', Option.some.injEq] at hstep
    subst hstep
    rw [hl, hc]; exact hb
  | set k v =>
    by_cases hk : k ∈ s.keys
    · obtain ⟨s₁, h, hw, hc, hcache, _⟩ := Set_resident hs hk v
      simp only [step, h, Option.some.injEq] at hstep
      subst hstep
      rw [← hw.index_size, hcache, hs.index_size, hc]; exact hb
    · obtain ⟨s₁, h, hw, hc, he⟩ := Set_absent hs hk v
      simp only [step, h, Option.some.injEq] at hstep
      subst hstep
      rw [he, hc]
      by_cases hfull : ((s.entries.length + 1 : Nat) : Int) > s.capacity
      · rw [if_pos hfull]
        simp only [List.dropLast_cons_of_ne_nil, List.length_dropLast, List.length_cons,
          Nat.add_sub_cancel]
        exact hb
      · rw [if_neg hfull]
        simp only [List.length_cons]
        omega

theorem run_bounded {s s' : LRUCache} (hs : WF s)
    (hb : (s.entries.length : Int) ≤ s.capacity) (ops : List Op) (hrun : run s ops = some s') :
    (s'.entries.length : Int) ≤ s'.capacity := by
  induction ops generalizing s with
  | nil =>
    simp only [run, Option.some.injEq] at hrun
    subst hrun; exact hb
  | cons op ops ih =>
    obtain ⟨s₁, h₁, hw₁, hc₁⟩ := step_total hs op
    simp only [run, h₁, Option.some_bind] at hrun
    exact ih hw₁ (step_bounded hs hb op h₁) hrun

theorem Reachable.bounded {capacity : Int} {s : LRUCache} (h : Reachable capacity s)
    (hcap : 0 ≤ capacity) : (s.entries.length : Int) ≤ capacity := by
  have hc := h.capacity_eq
  obtain ⟨ops, hr⟩ := h
  have := run_bounded (WF_New capacity) (by simpa [NewLRUCache, LRUCache.entries, GoList.New] using hcap) ops hr
  rw [hc] at this
  exact this

theorem WF.head_entry {s : LRUCache} (hs : WF s) :
    s.entries.head? = s.list.Front.bind (asEntry s.list) := by
  unfold LRUCache.entries GoList.Front
  cases ho : s.list.order with
  | nil => rfl
  | cons a as =>
    obtain ⟨c, hc, _⟩ := hs.linked a (by rw [ho]; exact List.mem_cons_self _ _)
    simp [List.filterMap_cons, hc]

/-! ## Properties of single calls -/

theorem sample_reachable : Reachable 2 sampleState := ⟨sampleOps, by decide⟩

theorem WF.entry_unique {s : LRUCache} (hs : WF s) {c d : CacheEntry}
    (hc : c ∈ s.entries) (hd : d ∈ s.entries) (hk : c.key = d.key) : c = d :=
  List.inj_on_of_nodup_map hs.keys_nodup hc hd hk

theorem Set_head {s : LRUCache} (hs : WF s) (hcap : 1 ≤ s.capacity) (k : String) (v : Value) :
    ∃ s', Set s k v = some s' ∧ WF s' ∧ s'.entries.head? = some ⟨k, v⟩ := by
  by_cases hk : k ∈ s.keys
  · obtain ⟨s', h, hw, _, _, he⟩ := Set_resident hs hk v
    exact ⟨s', h, hw, by rw [he]; rfl⟩
  · obtain ⟨s', h, hw, _, he⟩ := Set_absent hs hk v
    refine ⟨s', h, hw, ?_⟩
    rw [he]
    by_cases hfull : ((s.entries.length + 1 : Nat) : Int) > s.capacity
    · rw [if_pos hfull]
      have hne : s.entries ≠ [] := by
        intro h0
        rw [h0] at hfull
        simp at hfull
        omega
      rw [List.dropLast_cons_of_ne_nil hne]; rfl
    · rw [if_neg hfull]; rfl

/-- C1: on a cache of capacity at least 1, in every reachable state, `Set k v` returns,
the front element of the recency list then holds the entry `(k, v)`, and a `Get k`
issued right after returns `(v, true)`. -/
theorem set_then_front_and_get (capacity : Int) (hcap : 1 ≤ capacity) (s : LRUCache)
    (hs : Reachable capacity s) (k : String) (v : Value) :
    ∃ s' s'' e, Set s k v = some s' ∧ s'.list.Front = some e ∧
      asEntry s'.list e = some ⟨k, v⟩ ∧ s'.entries.head? = some ⟨k, v⟩ ∧
      Get s' k = some ((v, true), s'') := by
  obtain ⟨s', h, hw, hhead⟩ := Set_head hs.wf (hs.capacity_eq ▸ hcap) k v
  have hmem : (⟨k, v⟩ : CacheEntry) ∈ s'.entries := List.mem_of_mem_head? hhead
  have hk : k ∈ s'.keys := List.mem_map_of_mem CacheEntry.key hmem
  obtain ⟨c, s'', hc, hck, hg, _⟩ := Get_resident hw hk
  have hcv : c = ⟨k, v⟩ := hw.entry_unique hc hmem hck
  subst hcv
  have hfront := hw.head_entry
  rw [hhead] at hfront
  cases hf : s'.list.Front with
  | none => rw [hf] at hfront; cases hfront
  | some e =>
    rw [hf] at hfront
    exact ⟨s', s'', e, h, hf, hfront.symm, hhead, hg⟩

theorem set_then_front_and_get_witness :
    (1 : Int) ≤ 2 ∧ Reachable 2 sampleState ∧
    ∃ s' s'' e, Set sampleState "b" Value.nil = some s' ∧ s'.list.Front = some e ∧
      asEntry s'.list e = some ⟨"b", Value.nil⟩ ∧ s'.entries.head? = some ⟨"b", Value.nil⟩ ∧
      Get s' "b" = some ((Value.nil, true), s'') :=
  ⟨by decide, sample_reachable,
    set_then_front_and_get 2 (by decide) sampleState sample_reachable "b" Value.nil⟩

theorem keys_cons_filter (s : LRUCache) (c : CacheEntry) (k : String) (x : String)
    (hx : x ∈ s.keys) (hck : c.key = k) :
    x ∈ (c :: s.entries.filter (fun y => decide (y.key ≠ k))).map CacheEntry.key := by
  by_cases hxk : x = k
  · rw [List.map_cons, hck, hxk]; exact List.mem_cons_self _ _
  · obtain ⟨d, hd, hdk⟩ := List.mem_map.1 hx
    rw [List.map_cons]
    refine List.mem_cons_of_mem _ (List.mem_map.2 ⟨d, List.mem_filter.2 ⟨hd, ?_⟩, hdk⟩)
    simpa [hdk] using hxk

theorem filter_removed_le_one (xs : List String) (p : String → Bool)
    (h : ∀ x ∈ xs.dropLast, p x = false) : (xs.filter p).length ≤ 1 := by
  rcases List.eq_nil_or_concat xs with h0 | ⟨ys, y, h1⟩
  · simp [h0]
  · subst h1
    rw [List.concat_eq_append] at h ⊢
    rw [List.dropLast_concat] at h
    have : ys.filter p = [] := List.filter_eq_nil_iff.2 (fun a ha => by simp [h a ha])
    rw [List.filter_append, this, List.nil_append]
    exact (List.length_filter_le p [y]).trans (by simp)

/-- C3: on a cache of capacity at least 1, in every reachable state, `Set k v` of a key
that is not resident returns a state whose recency list is the new entry followed by the
previous entries, in their order and with their values, without the previous tail exactly
when the previous size was the capacity; index and list hold the same keys afterwards,
a key that disappeared is the previous tail key of a full cache, and no `Set` at all
(resident key or not) removes more than one key. -/
theorem set_absent_inserts_and_evicts_tail (capacity : Int) (hcap : 1 ≤ capacity)
    (s : LRUCache) (hs : Reachable capacity s) :
    (∀ k v, k ∉ s.keys → ∃ s', Set s k v = some s' ∧
      s'.entries = ⟨k, v⟩ ::
        (if (s.entries.length : Int) = capacity then s.entries.dropLast else s.entries) ∧
      (∀ x, (∃ e, mapLookup s'.cache x = some e) ↔ x ∈ s'.keys) ∧
      s'.cache.length = s'.entries.length ∧
      (∀ x, x ∈ s.keys → x ∉ s'.keys →
        (s.entries.length : Int) = capacity ∧ s.keys.getLast? = some x)) ∧
    (∀ k v, ∃ s', Set s k v = some s' ∧
      (s.keys.filter (fun x => decide (x ∉ s'.keys))).length ≤ 1) := by
  have hw := hs.wf
  have hc := hs.capacity_eq
  have hb := hs.bounded (by omega)
  have habs : ∀ k v, k ∉ s.keys → ∃ s', Set s k v = some s' ∧ WF s' ∧
      s'.entries = ⟨k, v⟩ ::
        (if (s.entries.length : Int) = capacity then s.entries.dropLast else s.entries) := by
    intro k v hk
    obtain ⟨s', h, hw', _, he⟩ := Set_absent hw hk v
    refine ⟨s', h, hw', ?_⟩
    rw [he, hc]
    by_cases hfull : (s.entries.length : Int) = capacity
    · have h1 : ((s.entries.length + 1 : Nat) : Int) > capacity := by omega
      have hne : s.entries ≠ [] := by
        intro h0; rw [h0] at hfull; simp at hfull; omega
      rw [if_pos h1, if_pos hfull, List.dropLast_cons_of_ne_nil hne]
    · have h1 : ¬ ((s.entries.length + 1 : Nat) : Int) > capacity := by omega
      rw [if_neg h1, if_neg hfull]
  constructor
  · intro k v hk
    obtain ⟨s', h, hw', he⟩ := habs k v hk
    refine ⟨s', h, he, fun x => (hw'.mem_keys_iff x).symm, hw'.index_size, ?_⟩
    intro x hx hx'
    by_cases hfull : (s.entries.length : Int) = capacity
    · refine ⟨hfull, ?_⟩
      rw [if_pos hfull] at he
      rcases List.eq_nil_or_concat s.entries with h0 | ⟨ys, y, h1⟩
      · simp [LRUCache.keys, h0] at hx
      · rw [List.concat_eq_append] at h1
        have hkeys : s.keys = ys.map CacheEntry.key ++ [y.key] := by
          simp [LRUCache.keys, h1]
        have hkeys' : s'.keys = k :: ys.map CacheEntry.key := by
          simp [LRUCache.keys, he, h1]
        rw [hkeys] at hx ⊢
        rw [hkeys'] at hx'
        rcases List.mem_append.1 hx with hx1 | hx1
        · exact absurd (List.mem_cons_of_mem _ hx1) hx'
        · rw [List.mem_singleton] at hx1
          rw [hx1]; simp
    · rw [if_neg hfull] at he
      exact absurd (by rw [LRUCache.keys, he, List.map_cons]; exact List.mem_cons_of_mem _ hx) hx'
  · intro k v
    by_cases hk : k ∈ s.keys
    · obtain ⟨s', h, _, _, _, he⟩ := Set_resident hw hk v
      refine ⟨s', h, ?_⟩
      have : s.keys.filter (fun x => decide (x ∉ s'.keys)) = [] := by
        rw [List.filter_eq_nil_iff]
        intro x hx
        have : x ∈ s'.keys := by
          rw [LRUCache.keys, he]; exact keys_cons_filter s _ k x hx rfl
        simp [this]
      rw [this]; simp
    · obtain ⟨s', h, _, he⟩ := habs k v hk
      refine ⟨s', h, filter_removed_le_one _ _ ?_⟩
      intro x hx
      have : x ∈ s'.keys := by
        rw [LRUCache.keys, he, List.map_cons]
        apply List.mem_cons_of_mem
        by_cases hfull : (s.entries.length : Int) = capacity
        · rw [if_pos hfull, List.map_dropLast]; exact hx
        · rw [if_neg hfull]; exact List.mem_of_mem_dropLast hx
      simp [this]

theorem set_absent_inserts_and_evicts_tail_witness :
    (1 : Int) ≤ 2 ∧ Reachable 2 sampleState ∧ "c" ∉ sampleState.keys ∧
    ∃ s', Set sampleState "c" Value.nil = some s' ∧
      s'.entries = [⟨"c", Value.nil⟩, ⟨"a", Value.int 1⟩] :=
  ⟨by decide, sample_reachable, by decide,
    (((set_absent_inserts_and_evicts_tail 2 (by decide) sampleState sample_reachable).1
      "c" Value.nil (by decide)).imp (fun _ h => ⟨h.1, h.2.1⟩))⟩

/-- C4: for every capacity at least 1 and every sequence of `Get` and `Set` calls on a
fresh cache, the sequence runs to completion and the recency list then has at most
`capacity` elements, each holding one resident key, all keys distinct. -/
theorem size_never_exceeds_capacity (capacity : Int) (hcap : 1 ≤ capacity) (ops : List Op) :
    ∃ s, run (NewLRUCache capacity) ops = some s ∧ (s.list.Len : Int) ≤ capacity ∧
      s.keys.length = s.list.Len ∧ s.keys.Nodup := by
  obtain ⟨s, hr, hw, _⟩ := run_total (WF_New capacity) ops
  have hs : Reachable capacity s := ⟨ops, hr⟩
  have hb := hs.bounded (by omega)
  have hl : s.keys.length = s.list.Len := by
    rw [LRUCache.keys, List.length_map, hw.entries_length]; rfl
  refine ⟨s, hr, ?_, hl, hw.keys_nodup⟩
  rw [← hl, LRUCache.keys, List.length_map]
  exact hb

theorem size_never_exceeds_capacity_witness :
    (1 : Int) ≤ 2 ∧
    ∃ s, run (NewLRUCache 2) (sampleOps ++ [Op.set "c" Value.nil, Op.set "d" Value.nil]) = some s ∧
      (s.list.Len : Int) ≤ 2 ∧ s.keys.length = s.list.Len ∧ s.keys.Nodup :=
  ⟨by decide, size_never_exceeds_capacity 2 (by decide) _⟩

/-- C5: in every state reachable from `NewLRUCache capacity`, for any integer capacity,
a key is in the index exactly when the recency list holds an entry with that key, the
index maps each key to a linked element whose entry carries that key, the keys of the
list are pairwise distinct (and so are the keys of the index), and the list length
equals the index size. -/
theorem index_matches_list (capacity : Int) (s : LRUCache) (hs : Reachable capacity s) :
    (∀ k, (∃ e, mapLookup s.cache k = some e) ↔ k ∈ s.keys) ∧
    (∀ k e, mapLookup s.cache k = some e →
      e ∈ s.list.order ∧ ∃ c, asEntry s.list e = some c ∧ c.key = k) ∧
    s.keys.Nodup ∧ s.indexKeys.Nodup ∧ s.keys.length = s.list.Len ∧
    s.list.Len = s.cache.length := by
  have hw := hs.wf
  refine ⟨fun k => (hw.mem_keys_iff k).symm, hw.indexed, hw.keys_nodup, hw.keysNodup, ?_,
    hw.size.symm⟩
  rw [LRUCache.keys, List.length_map, hw.entries_length]; rfl

theorem index_matches_list_witness :
    Reachable 0 (NewLRUCache 0) ∧ Reachable 2 sampleState ∧
    sampleState.keys.Nodup ∧ sampleState.list.Len = sampleState.cache.length :=
  ⟨⟨[], rfl⟩, sample_reachable,
    (index_matches_list 2 sampleState sample_reachable).2.2.1,
    (index_matches_list 2 sampleState sample_reachable).2.2.2.2.2⟩

theorem WF.touched_perm {s : LRUCache} (hs : WF s) {c : CacheEntry} (hc : c ∈ s.entries) :
    (c :: s.entries.filter (fun x => decide (x.key ≠ c.key))).Perm s.entries := by
  have hf : s.entries.filter (fun x => decide (x.key ≠ c.key)) = s.entries.erase c := by
    rw [hs.entries_nodup.erase_eq_filter]
    apply List.filter_congr
    intro x hx
    by_cases hxc : x = c
    · subst hxc; simp
    · have : x.key ≠ c.key := fun hk => hxc (hs.entry_unique hx hc hk)
      simp [hxc, this]
  rw [hf]
  exact (List.perm_cons_erase hc).symm

theorem filter_cons_filter_key (xs : List CacheEntry) (c : CacheEntry) (k : String)
    (hck : c.key = k) :
    (c :: xs.filter (fun x => decide (x.key ≠ k))).filter (fun x => decide (x.key ≠ k)) =
      xs.filter (fun x => decide (x.key ≠ k)) := by
  simp [List.filter_cons, hck, List.filter_filter]

/-- C6: in every reachable state, `Get k` of a resident key returns the value stored for
`k` with `found = true` and only reorders: the entry of `k` is the head afterwards, the
other entries keep their relative order, and the entries (keys with their values), the
size, the index and the capacity are those from before. -/
theorem get_resident_only_reorders (capacity : Int) (s : LRUCache)
    (hs : Reachable capacity s) (k : String) (hk : k ∈ s.keys) :
    ∃ c s', c ∈ s.entries ∧ c.key = k ∧ Get s k = some ((c.value, true), s') ∧
      s'.entries = c :: s.entries.filter (fun x => decide (x.key ≠ k)) ∧
      s'.entries.filter (fun x => decide (x.key ≠ k)) =
        s.entries.filter (fun x => decide (x.key ≠ k)) ∧
      s'.entries.Perm s.entries ∧ s'.keys.Perm s.keys ∧
      s'.entries.length = s.entries.length ∧ s'.list.Len = s.list.Len ∧
      s'.cache = s.cache ∧ s'.capacity = s.capacity := by
  have hw := hs.wf
  obtain ⟨c, s', hc, hck, hg, hw', hcap, hcache, _, he⟩ := Get_resident hw hk
  have hperm : s'.entries.Perm s.entries := by
    rw [he, ← hck]; exact hw.touched_perm hc
  have hlen : s'.entries.length = s.entries.length := hperm.length_eq
  refine ⟨c, s', hc, hck, hg, he, ?_, hperm, hperm.map _, hlen, ?_, hcache, hcap⟩
  · rw [he]; exact filter_cons_filter_key _ _ _ hck
  · have h1 := hw'.entries_length
    have h2 := hw.entries_length
    unfold GoList.Len
    omega

theorem get_resident_only_reorders_witness :
    Reachable 2 sampleState ∧ "b" ∈ sampleState.keys ∧
    ∃ c s', c ∈ sampleState.entries ∧ c.key = "b" ∧
      Get sampleState "b" = some ((c.value, true), s') ∧
      s'.entries = c :: sampleState.entries.filter (fun x => decide (x.key ≠ "b")) :=
  ⟨sample_reachable, by decide,
    (get_resident_only_reorders 2 sampleState sample_reachable "b" (by decide)).imp
      (fun _ h => h.imp (fun _ h' => ⟨h'.1, h'.2.1, h'.2.2.1, h'.2.2.2.1⟩))⟩

/-- C7: in every reachable state `Get k` returns, with `found = true` exactly when `k` is
resident; for a key that is not resident it returns `(nil, false)` and the state
afterwards is the state before. -/
theorem get_found_iff_resident (capacity : Int) (s : LRUCache) (hs : Reachable capacity s)
    (k : String) :
    (∃ r s', Get s k = some (r, s') ∧ (r.2 = true ↔ k ∈ s.keys)) ∧
    (k ∉ s.keys → Get s k = some ((Value.nil, false), s)) := by
  have hw := hs.wf
  refine ⟨?_, fun hk => Get_absent hw hk⟩
  by_cases hk : k ∈ s.keys
  · obtain ⟨c, s', _, _, hg, _⟩ := Get_resident hw hk
    exact ⟨_, s', hg, by simp [hk]⟩
  · exact ⟨_, s, Get_absent hw hk, by simp [hk]⟩

theorem get_found_iff_resident_witness :
    Reachable 2 sampleState ∧ "zz" ∉ sampleState.keys ∧
    Get sampleState "zz" = some ((Value.nil, false), sampleState) :=
  ⟨sample_reachable, by decide,
    (get_found_iff_resident 2 sampleState sample_reachable "zz").2 (by decide)⟩

theorem Set_resident_keys {s s' : LRUCache} (hs : WF s) (hs' : WF s') {k : String} {v : Value}
    (hk : k ∈ s.keys)
    (he : s'.entries = ⟨k, v⟩ :: s.entries.filter (fun x => decide (x.key ≠ k))) :
    s'.keys.Perm s.keys := by
  rw [List.perm_ext_iff_of_nodup hs'.keys_nodup hs.keys_nodup]
  intro x
  constructor
  · intro hx
    rw [LRUCache.keys, he, List.map_cons, List.mem_cons] at hx
    rcases hx with rfl | hx
    · exact hk
    · obtain ⟨d, hd, rfl⟩ := List.mem_map.1 hx
      exact List.mem_map_of_mem _ (List.mem_filter.1 hd).1
  · intro hx
    rw [LRUCache.keys, he]
    exact keys_cons_filter s _ k x hx rfl

/-- C9: in every reachable state, `Set k v₂` of a resident key overwrites the value of `k`,
moves its entry to the head and evicts nothing: the other entries keep their values and
their relative order, the size, the key set, the index and the capacity are unchanged,
and a following `Get k` returns `(v₂, true)`; with capacity at least 1 this is the case
right after any `Set k v₁`. -/
theorem set_resident_updates_in_place (capacity : Int) (s : LRUCache)
    (hs : Reachable capacity s) (k : String) (v₂ : Value) :
    (k ∈ s.keys → ∃ s' s'', Set s k v₂ = some s' ∧
      s'.entries = ⟨k, v₂⟩ :: s.entries.filter (fun x => decide (x.key ≠ k)) ∧
      s'.entries.length = s.entries.length ∧ s'.list.Len = s.list.Len ∧
      s'.keys.Perm s.keys ∧ s'.cache = s.cache ∧ s'.capacity = s.capacity ∧
      Get s' k = some ((v₂, true), s'')) ∧
    (1 ≤ capacity → ∀ v₁, ∃ s₁ s₂ s₃, Set s k v₁ = some s₁ ∧ k ∈ s₁.keys ∧
      Set s₁ k v₂ = some s₂ ∧ s₂.entries.length = s₁.entries.length ∧
      s₂.keys.Perm s₁.keys ∧ s₂.entries.head? = some ⟨k, v₂⟩ ∧
      Get s₂ k = some ((v₂, true), s₃)) := by
  have key : ∀ t : LRUCache, WF t → k ∈ t.keys → ∃ t' t'', Set t k v₂ = some t' ∧
      t'.entries = ⟨k, v₂⟩ :: t.entries.filter (fun x => decide (x.key ≠ k)) ∧
      t'.entries.length = t.entries.length ∧ t'.list.Len = t.list.Len ∧
      t'.keys.Perm t.keys ∧ t'.cache = t.cache ∧ t'.capacity = t.capacity ∧
      Get t' k = some ((v₂, true), t'') := by
    intro t ht hk
    obtain ⟨t', h, hw', hcap, hcache, he⟩ := Set_resident ht hk v₂
    have hmem : (⟨k, v₂⟩ : CacheEntry) ∈ t'.entries := by rw [he]; exact List.mem_cons_self _ _
    have hk' : k ∈ t'.keys := List.mem_map_of_mem CacheEntry.key hmem
    obtain ⟨c, t'', hc, hck, hg, _⟩ := Get_resident hw' hk'
    have hcv : c = ⟨k, v₂⟩ := hw'.entry_unique hc hmem hck
    subst hcv
    have hlen : t'.entries.length = t.entries.length := by
      rw [← hw'.index_size, hcache, ht.index_size]
    refine ⟨t', t'', h, he, hlen, ?_, Set_resident_keys ht hw' hk he, hcache, hcap, hg⟩
    have h1 := hw'.entries_length
    have h2 := ht.entries_length
    unfold GoList.Len
    omega
  refine ⟨key s hs.wf, ?_⟩
  intro hcap v₁
  obtain ⟨s₁, h₁, hw₁, hhead⟩ := Set_head hs.wf (hs.capacity_eq ▸ hcap) k v₁
  have hk₁ : k ∈ s₁.keys :=
    List.mem_map_of_mem CacheEntry.key (List.mem_of_mem_head? hhead)
  obtain ⟨s₂, s₃, h₂, he, hlen, _, hperm, _, _, hg⟩ := key s₁ hw₁ hk₁
  exact ⟨s₁, s₂, s₃, h₁, hk₁, h₂, hlen, hperm, by rw [he]; rfl, hg⟩

theorem set_resident_updates_in_place_witness :
    Reachable 2 sampleState ∧ "b" ∈ sampleState.keys ∧
    (∃ s' s'', Set sampleState "b" (Value.int 7) = some s' ∧
      s'.entries = [⟨"b", Value.int 7⟩, ⟨"a", Value.int 1⟩] ∧
      Get s' "b" = some ((Value.int 7, true), s'')) ∧
    (1 : Int) ≤ 2 ∧
    (∃ s₁ s₂ s₃, Set sampleState "c" Value.nil = some s₁ ∧ "c" ∈ s₁.keys ∧
      Set s₁ "c" (Value.int 7) = some s₂ ∧ s₂.entries.length = s₁.entries.length ∧
      s₂.keys.Perm s₁.keys ∧ s₂.entries.head? = some ⟨"c", Value.int 7⟩ ∧
      Get s₂ "c" = some ((Value.int 7, true), s₃)) :=
  ⟨sample_reachable, by decide,
    ((set_resident_updates_in_place 2 sampleState sample_reachable "b" (Value.int 7)).1
      (by decide)).imp (fun _ h => h.imp (fun _ h' => ⟨h'.1, h'.2.1, h'.2.2.2.2.2.2.2⟩)),
    by decide,
    (set_resident_updates_in_place 2 sampleState sample_reachable "c" (Value.int 7)).2
      (by decide) Value.nil⟩

theorem Get_idem {s s' : LRUCache} {k : String} {r : Value × Bool}
    (h : Get s k = some (r, s')) : Get s' k = some (r, s') := by
  unfold Get at h
  cases hl : mapLookup s.cache k with
  | none =>
    simp only [hl, Option.some.injEq, Prod.mk.injEq] at h
    obtain ⟨rfl, rfl⟩ := h
    simp [Get, hl]
  | some a =>
    simp only [hl] at h
    cases hc : asEntry (s.list.MoveToFront a) a with
    | none => simp [hc] at h
    | some c =>
      simp only [hc, Option.some.injEq, Prod.mk.injEq] at h
      obtain ⟨rfl, rfl⟩ := h
      have hfix : (s.list.MoveToFront a).MoveToFront a = s.list.MoveToFront a := by
        unfold GoList.MoveToFront
        by_cases hcond : a ∈ s.list.order ∧ s.list.order.head? ≠ some a
        · simp [hcond]
        · simp [hcond]
      unfold Get
      simp only [hl, hfix, hc]

/-- C10: in every reachable state, `Get k` called twice in a row returns the same result
both times and the state after the second call is the state after the first; when `k`
is resident the result is a hit and `k` is the head of the recency list after each call. -/
theorem get_is_idempotent (capacity : Int) (s : LRUCache) (hs : Reachable capacity s)
    (k : String) :
    ∃ r s', Get s k = some (r, s') ∧ Get s' k = some (r, s') ∧
      (k ∈ s.keys → r.2 = true ∧ s'.keys.head? = some k) := by
  have hw := hs.wf
  by_cases hk : k ∈ s.keys
  · obtain ⟨c, s', _, hck, hg, _, _, _, _, he⟩ := Get_resident hw hk
    refine ⟨_, s', hg, Get_idem hg, fun _ => ⟨rfl, ?_⟩⟩
    rw [LRUCache.keys, he, List.map_cons, hck]; rfl
  · exact ⟨_, s, Get_absent hw hk, Get_idem (Get_absent hw hk), fun h => absurd h hk⟩

theorem get_is_idempotent_witness :
    Reachable 2 sampleState ∧
    ∃ r s', Get sampleState "b" = some (r, s') ∧ Get s' "b" = some (r, s') ∧
      ("b" ∈ sampleState.keys → r.2 = true ∧ s'.keys.head? = some "b") :=
  ⟨sample_reachable, get_is_idempotent 2 sampleState sample_reachable "b"⟩

/-! ## Recency order and last-touch times -/

theorem Timed.mono {keys : List String} {n : Nat} {t : String → Option Nat}
    (h : Timed keys n t) : Timed keys (n + 1) t :=
  ⟨fun k hk => by
    obtain ⟨m, hm, hlt⟩ := h.1 k hk
    exact ⟨m, hm, Nat.lt_succ_of_lt hlt⟩, h.2⟩

theorem Timed.after_touch {keys rest : List String} {n : Nat} {t : String → Option Nat}
    (h : Timed keys n t) (k : String) (hsub : rest.Sublist keys) (hk : k ∉ rest) :
    Timed (k :: rest) (n + 1) (fun x => if k = x then some n else t x) := by
  have hrest : ∀ x ∈ rest, ∃ m, (if k = x then some n else t x) = some m ∧ m < n ∧
      t x = some m := by
    intro x hx
    have hne : k ≠ x := fun hkx => hk (hkx ▸ hx)
    obtain ⟨m, hm, hlt⟩ := h.1 x (hsub.subset hx)
    exact ⟨m, by simp [hne, hm], hlt, hm⟩
  constructor
  · intro x hx
    rcases List.mem_cons.1 hx with rfl | hx
    · exact ⟨n, by simp, Nat.lt_succ_self n⟩
    · obtain ⟨m, hm, hlt, _⟩ := hrest x hx
      exact ⟨m, hm, Nat.lt_succ_of_lt hlt⟩
  · rw [List.pairwise_cons]
    constructor
    · intro b hb
      obtain ⟨m, hm, hlt, _⟩ := hrest b hb
      simp only [older, hm, if_true]
      simpa using hlt
    · refine (h.2.sublist hsub).imp_of_mem ?_
      intro a b ha hb hab
      have hka : k ≠ a := fun hkx => hk (hkx ▸ ha)
      have hkb : k ≠ b := fun hkx => hk (hkx ▸ hb)
      simpa [older, hka, hkb] using hab

theorem Get_resident_keys {s s' : LRUCache} {c : CacheEntry} {k : String} (hck : c.key = k)
    (he : s'.entries = c :: s.entries.filter (fun x => decide (x.key ≠ k))) :
    ∃ rest, s'.keys = k :: rest ∧ rest.Sublist s.keys ∧ k ∉ rest := by
  refine ⟨(s.entries.filter (fun x => decide (x.key ≠ k))).map CacheEntry.key, ?_,
    (List.filter_sublist _).map _, ?_⟩
  · rw [LRUCache.keys, he, List.map_cons, hck]
  · intro hmem
    obtain ⟨d, hd, hdk⟩ := List.mem_map.1 hmem
    have := (List.mem_filter.1 hd).2
    simp [hdk] at this

/-- Shape of the key list after a `Set`: empty, or the key just set followed by keys
that were resident before, in their previous order. -/
theorem Set_keys_shape {s s' : LRUCache} (hs : WF s) {k : String} {v : Value}
    (h : Set s k v = some s') :
    s'.keys = [] ∨ ∃ rest, s'.keys = k :: rest ∧ rest.Sublist s.keys ∧ k ∉ rest := by
  by_cases hk : k ∈ s.keys
  · obtain ⟨s₁, h₁, _, _, _, he⟩ := Set_resident hs hk v
    rw [h] at h₁; cases h₁
    exact Or.inr (Get_resident_keys rfl he)
  · obtain ⟨s₁, h₁, _, _, he⟩ := Set_absent hs hk v
    rw [h] at h₁; cases h₁
    by_cases hfull : ((s.entries.length + 1 : Nat) : Int) > s.capacity
    · rw [if_pos hfull] at he
      by_cases hne : s.entries = []
      · left
        rw [LRUCache.keys, he, hne]; rfl
      · right
        rw [List.dropLast_cons_of_ne_nil hne] at he
        refine ⟨s.entries.dropLast.map CacheEntry.key, by rw [LRUCache.keys, he]; rfl,
          (List.dropLast_sublist _).map _, ?_⟩
        intro hmem
        obtain ⟨d, hd, hdk⟩ := List.mem_map.1 hmem
        exact hk (List.mem_map.2 ⟨d, List.mem_of_mem_dropLast hd, hdk⟩)
    · rw [if_neg hfull] at he
      exact Or.inr ⟨s.keys, by rw [LRUCache.keys, he]; rfl, List.Sublist.refl _, hk⟩

theorem step_timed {s s' : LRUCache} (hs : WF s) {n : Nat} {t : String → Option Nat}
    (ht : Timed s.keys n t) (op : Op) (hstep : step s op = some s') :
    Timed s'.keys (n + 1) (fun x => if touches s op x then some n else t x) := by
  cases op with
  | get k =>
    by_cases hk : k ∈ s.keys
    · obtain ⟨c, s₁, _, hck, hg, _, _, _, _, he⟩ := Get_resident hs hk
      simp only [step, hg, Option.map_some', Option.some.injEq] at hstep
      subst hstep
      obtain ⟨rest, hkeys, hsub, hnot⟩ := Get_resident_keys hck he
      have ht' := ht.after_touch k hsub hnot
      rw [← hkeys] at ht'
      have hfun : (fun x => if touches s (Op.get k) x then some n else t x) =
          (fun x => if k = x then some n else t x) := by
        funext x; simp [touches, hg]
      rw [hfun]; exact ht'
    · have hg := Get_absent hs hk
      simp only [step, hg, Option.map_some', Option.some.injEq] at hstep
      subst hstep
      have hfun : (fun x => if touches s (Op.get k) x then some n else t x) = t := by
        funext x; simp [touches, hg]
      rw [hfun]; exact ht.mono
  | set k v =>
    have hfun : (fun x => if touches s (Op.set k v) x then some n else t x) =
        (fun x => if k = x then some n else t x) := by
      funext x; simp [touches]
    rw [hfun]
    rcases Set_keys_shape hs hstep with h0 | ⟨rest, hkeys, hsub, hnot⟩
    · rw [h0]; exact ⟨fun _ h => by simp at h, List.Pairwise.nil⟩
    · rw [hkeys]; exact ht.after_touch k hsub hnot

theorem run_timed {s s' : LRUCache} (hs : WF s) {n : Nat} {t : String → Option Nat}
    (ht : Timed s.keys n t) (ops : List Op) (hrun : run s ops = some s') :
    Timed s'.keys (n + ops.length) (touchTimes s n t ops) := by
  induction ops generalizing s n t with
  | nil =>
    simp only [run, Option.some.injEq] at hrun
    subst hrun; exact ht
  | cons op ops ih =>
    obtain ⟨s₁, h₁, hw₁, _⟩ := step_total hs op
    simp only [run, h₁, Option.some_bind] at hrun
    have := ih hw₁ (step_timed hs ht op h₁) hrun
    simp only [touchTimes, h₁, List.length_cons]
    rw [show n + (ops.length + 1) = n + 1 + ops.length by omega]
    exact this

/-- A resident key that a `Set` removes is the tail key of the recency list. -/
theorem Set_removed_is_last {s s' : LRUCache} (hs : WF s) {k : String} {v : Value}
    (h : Set s k v = some s') {x : String} (hx : x ∈ s.keys) (hx' : x ∉ s'.keys) :
    ∃ init, s.keys = init ++ [x] := by
  by_cases hk : k ∈ s.keys
  · obtain ⟨s₁, h₁, _, _, _, he⟩ := Set_resident hs hk v
    rw [h] at h₁; cases h₁
    exact absurd (by rw [LRUCache.keys, he]; exact keys_cons_filter s _ k x hx rfl) hx'
  · obtain ⟨s₁, h₁, _, _, he⟩ := Set_absent hs hk v
    rw [h] at h₁; cases h₁
    by_cases hfull : ((s.entries.length + 1 : Nat) : Int) > s.capacity
    · rw [if_pos hfull] at he
      rcases List.eq_nil_or_concat s.entries with h0 | ⟨ys, y, h1⟩
      · simp [LRUCache.keys, h0] at hx
      · rw [List.concat_eq_append] at h1
        have hkeys : s.keys = ys.map CacheEntry.key ++ [y.key] := by
          simp [LRUCache.keys, h1]
        rw [h1, ← List.cons_append, List.dropLast_concat] at he
        have hkeys' : s'.keys = k :: ys.map CacheEntry.key := by
          simp [LRUCache.keys, he]
        rw [hkeys] at hx
        rw [hkeys'] at hx'
        rcases List.mem_append.1 hx with hx1 | hx1
        · exact absurd (List.mem_cons_of_mem _ hx1) hx'
        · rw [List.mem_singleton] at hx1
          exact ⟨ys.map CacheEntry.key, by rw [hkeys, hx1]⟩
    · rw [if_neg hfull] at he
      exact absurd (by rw [LRUCache.keys, he, List.map_cons]; exact List.mem_cons_of_mem _ hx) hx'

/-- C2: for every sequence of `Get` and `Set` calls on a fresh cache (any capacity, so in
particular capacity at least 1) the sequence runs to completion, every resident key has
a last touch, the recency list is ordered head to tail by strictly decreasing last-touch
number, and a resident key that a further `Set` evicts has a last touch older than that
of every other key resident before that call. -/
theorem eviction_follows_last_touch (capacity : Int) (ops : List Op) :
    ∃ s, run (NewLRUCache capacity) ops = some s ∧
      (∀ k ∈ s.keys, ∃ m, lastTouch capacity ops k = some m ∧ m < ops.length) ∧
      s.keys.Pairwise (fun a b => older (lastTouch capacity ops) b a = true) ∧
      (∀ k v s' x, Set s k v = some s' → x ∈ s.keys → x ∉ s'.keys →
        ∀ y ∈ s.keys, y ≠ x → older (lastTouch capacity ops) x y = true) := by
  obtain ⟨s, hr, hw, _⟩ := run_total (WF_New capacity) ops
  have h0 : Timed (NewLRUCache capacity).keys 0 (fun _ => none) :=
    ⟨fun _ h => by simp [NewLRUCache, LRUCache.keys, LRUCache.entries, GoList.New] at h,
     by simp [NewLRUCache, LRUCache.keys, LRUCache.entries, GoList.New]⟩
  have ht := run_timed (WF_New capacity) h0 ops hr
  rw [Nat.zero_add] at ht
  refine ⟨s, hr, ht.1, ht.2, ?_⟩
  intro k v s' x hset hx hx' y hy hyx
  obtain ⟨init, hinit⟩ := Set_removed_is_last hw hset hx hx'
  have hp : (init ++ [x]).Pairwise (fun a b => older (lastTouch capacity ops) b a = true) :=
    hinit ▸ ht.2
  rw [List.pairwise_append] at hp
  rw [hinit, List.mem_append, List.mem_singleton] at hy
  rcases hy with hy | hy
  · exact hp.2.2 y hy x (List.mem_singleton_self x)
  · exact absurd hy hyx

theorem eviction_follows_last_touch_witness :
    run (NewLRUCache 2) sampleOps = some sampleState ∧ sampleState.keys = ["a", "b"] ∧
      lastTouch 2 sampleOps "a" = some 2 ∧ lastTouch 2 sampleOps "b" = some 1 ∧
      (∃ s', Set sampleState "c" Value.nil = some s' ∧ "b" ∉ s'.keys) ∧
      older (lastTouch 2 sampleOps) "b" "a" = true := by
  obtain ⟨s, hr, _, _, hev⟩ := eviction_follows_last_touch 2 sampleOps
  have hs : s = sampleState := Option.some.inj (hr.symm.trans (by decide))
  subst hs
  have hset : ∃ s', Set sampleState "c" Value.nil = some s' ∧ "b" ∉ s'.keys :=
    ⟨_, rfl, by decide⟩
  obtain ⟨s', h', hb⟩ := hset
  exact ⟨hr, by decide, by decide, by decide, ⟨s', h', hb⟩,
    hev "c" Value.nil s' "b" h' (by decide) hb "a" (by decide) (by decide)⟩

/-! ## Keys that are not resident -/

theorem Get_keys_perm {s s' : LRUCache} (hs : WF s) {k : String} {r : Value × Bool}
    (h : Get s k = some (r, s')) : s'.keys.Perm s.keys := by
  by_cases hk : k ∈ s.keys
  · obtain ⟨c, s₁, hc, hck, hg, _, _, _, _, he⟩ := Get_resident hs hk
    rw [h] at hg
    simp only [Option.some.injEq, Prod.mk.injEq] at hg
    obtain ⟨_, rfl⟩ := hg
    have hperm : s'.entries.Perm s.entries := by
      rw [he, ← hck]; exact hs.touched_perm hc
    exact hperm.map _
  · rw [Get_absent hs hk] at h
    simp only [Option.some.injEq, Prod.mk.injEq] at h
    obtain ⟨_, rfl⟩ := h
    exact List.Perm.refl _

theorem step_absent_stays {s s' : LRUCache} (hs : WF s) {k : String} (hk : k ∉ s.keys)
    (op : Op) (hop : k ∉ setKeys [op]) (hstep : step s op = some s') : k ∉ s'.keys := by
  cases op with
  | get k' =>
    obtain ⟨r, s₁, hg, _⟩ := Get_total hs k'
    simp only [step, hg, Option.map_some', Option.some.injEq] at hstep
    subst hstep
    exact fun h => hk ((Get_keys_perm hs hg).subset h)
  | set k' v =>
    have hne : k ≠ k' := fun h => hop (by simp [setKeys, h])
    rcases Set_keys_shape hs hstep with h0 | ⟨rest, hkeys, hsub, _⟩
    · rw [h0]; simp
    · rw [hkeys]
      intro hmem
      rcases List.mem_cons.1 hmem with h1 | h1
      · exact hne h1
      · exact hk (hsub.subset h1)

theorem run_absent_stays {s s' : LRUCache} (hs : WF s) {k : String} (hk : k ∉ s.keys)
    (ops : List Op) (hops : k ∉ setKeys ops) (hrun : run s ops = some s') :
    k ∉ s'.keys := by
  induction ops generalizing s with
  | nil =>
    simp only [run, Option.some.injEq] at hrun
    subst hrun; exact hk
  | cons op ops ih =>
    obtain ⟨s₁, h₁, hw₁, _⟩ := step_total hs op
    simp only [run, h₁, Option.some_bind] at hrun
    have hsplit : k ∉ setKeys [op] ∧ k ∉ setKeys ops := by
      cases op with
      | get k' => exact ⟨by simp [setKeys], hops⟩
      | set k' v =>
        simp only [setKeys, List.mem_cons, not_or] at hops
        exact ⟨by simpa [setKeys] using hops.1, hops.2⟩
    exact ih hw₁ (step_absent_stays hs hk op hsplit.1 h₁) hsplit.2 hrun

/-- C8: every sequence of `Get` and `Set` calls on a fresh cache runs to completion, and
for every key `k`: when `k` was never passed to `Set`, or when some `Set` of the
sequence evicted the entry of `k` (`k` resident before that call, or the key of that
call itself, and not resident after it) and `k` was not passed to `Set` afterwards,
`Get k` returns `(nil, false)` and the state afterwards is the state before. -/
theorem get_misses_unset_or_evicted (capacity : Int) (ops : List Op) (k : String) :
    ∃ s, run (NewLRUCache capacity) ops = some s ∧
      (k ∉ setKeys ops → Get s k = some ((Value.nil, false), s)) ∧
      (∀ pre k' v' post s₁ s₂, ops = pre ++ Op.set k' v' :: post →
        run (NewLRUCache capacity) pre = some s₁ → Set s₁ k' v' = some s₂ →
        (k ∈ s₁.keys ∨ k' = k) → k ∉ s₂.keys → k ∉ setKeys post →
        Get s k = some ((Value.nil, false), s)) := by
  obtain ⟨s, hr, hw, _⟩ := run_total (WF_New capacity) ops
  refine ⟨s, hr, ?_, ?_⟩
  · intro hnever
    have h0 : k ∉ (NewLRUCache capacity).keys := by
      simp [NewLRUCache, LRUCache.keys, LRUCache.entries, GoList.New]
    exact Get_absent hw (run_absent_stays (WF_New capacity) h0 ops hnever hr)
  · intro pre k' v' post s₁ s₂ hops hpre hset _ hgone hpost
    have hw₂ : WF s₂ := by
      obtain ⟨t, ht, hwt, _⟩ := run_total (WF_New capacity) (pre ++ [Op.set k' v'])
      rw [run_append, hpre] at ht
      simp only [Option.some_bind, run, step, hset] at ht
      cases ht; exact hwt
    have hrun₂ : run s₂ post = some s := by
      rw [hops, run_append, hpre] at hr
      simpa [run, step, hset] using hr
    exact Get_absent hw (run_absent_stays hw₂ hgone post hpost hrun₂)

theorem get_misses_unset_or_evicted_witness :
    ∃ s, run (NewLRUCache 1) [Op.set "a" (Value.int 1), Op.set "b" Value.nil, Op.get "b"] = some s ∧
      Get s "zz" = some ((Value.nil, false), s) ∧ Get s "a" = some ((Value.nil, false), s) :=
  (get_misses_unset_or_evicted 1 [Op.set "a" (Value.int 1), Op.set "b" Value.nil, Op.get "b"]
      "zz").imp (fun s h =>
    ⟨h.1, h.2.1 (by decide),
      (get_misses_unset_or_evicted 1
        [Op.set "a" (Value.int 1), Op.set "b" Value.nil, Op.get "b"] "a").elim
        (fun t ht =>
          have hst : t = s := Option.some.inj (ht.1.symm.trans h.1)
          hst ▸ ht.2.2 [Op.set "a" (Value.int 1)] "b" Value.nil [Op.get "b"]
            { capacity := 1, cache := [("a", 0)],
              list := { heap := [Any.entry ⟨"a", Value.int 1⟩], order := [0] } }
            { capacity := 1, cache := [("b", 1)],
              list := { heap := [Any.entry ⟨"a", Value.int 1⟩, Any.entry ⟨"b", Value.nil⟩],
                        order := [1] } }
            rfl (by decide) (by decide) (Or.inl (by decide)) (by decide) (by decide))⟩)

/-! ## The scenario of `main` -/

/-- C11: on `NewLRUCache 3`, after the three `Set` calls of `main` the size is 3 and the
order head to tail is course, division, company; `Get "company"` returns
`("Yandex", true)` and the order becomes company, course, division; `Set "year" 2024`
evicts exactly "division" with the size staying 3; `Set "age" "13-17yrs"` evicts exactly
"course" and leaves the order age, year, company. -/
theorem main_scenario :
    ∃ s₃ s₄ s₅ s₆,
      run (NewLRUCache 3) demoSetup = some s₃ ∧
      s₃.list.Len = 3 ∧ s₃.keys = ["course", "division", "company"] ∧
      Get s₃ "company" = some ((Value.str "Yandex", true), s₄) ∧
      s₄.keys = ["company", "course", "division"] ∧
      Set s₄ "year" (Value.int 2024) = some s₅ ∧
      s₄.keys.filter (fun x => decide (x ∉ s₅.keys)) = ["division"] ∧
      mapLookup s₅.cache "division" = none ∧
      s₅.list.Len = 3 ∧ s₅.keys = ["year", "company", "course"] ∧
      Set s₅ "age" (Value.str "13-17yrs") = some s₆ ∧
      s₅.keys.filter (fun x => decide (x ∉ s₆.keys)) = ["course"] ∧
      mapLookup s₆.cache "course" = none ∧
      s₆.list.Len = 3 ∧ s₆.keys = ["age", "year", "company"] := by
  refine ⟨_, _, _, _, rfl, ?_, ?_, rfl, ?_, rfl, ?_, ?_, ?_, ?_, rfl, ?_, ?_, ?_, ?_⟩ <;> decide

/-! ## Construction and non-positive capacities -/

/-- C13 (counterexample): `NewLRUCache 0` and `NewLRUCache (-1)` signal no failure; each
returns an empty cache on which `Set` and `Get` then run. -/
theorem NewLRUCache_accepts_zero_and_negative :
    NewLRUCache 0 = { capacity := 0, cache := [], list := GoList.New } ∧
    NewLRUCache (-1) = { capacity := -1, cache := [], list := GoList.New } ∧
    (∃ s, Set (NewLRUCache 0) "a" (Value.int 1) = some s) ∧
    (∃ r, Get (NewLRUCache 0) "a" = some r) ∧
    (∃ s, run (NewLRUCache (-1)) [Op.set "a" (Value.int 1), Op.get "a"] = some s) :=
  ⟨rfl, rfl, ⟨_, rfl⟩, ⟨_, rfl⟩, ⟨_, rfl⟩⟩

/-- C13 (amended): `NewLRUCache` validates nothing; for every integer capacity, the
non-positive ones included, it returns the empty cache with that capacity, and every
sequence of `Get` and `Set` calls on it runs to completion. -/
theorem NewLRUCache_never_rejects (capacity : Int) :
    (NewLRUCache capacity).capacity = capacity ∧ (NewLRUCache capacity).cache = [] ∧
    (NewLRUCache capacity).list = GoList.New ∧ (NewLRUCache capacity).entries = [] ∧
    ∀ ops, ∃ s, run (NewLRUCache capacity) ops = some s ∧ s.capacity = capacity := by
  refine ⟨rfl, rfl, rfl, rfl, fun ops => ?_⟩
  obtain ⟨s, hr, _, hc⟩ := run_total (WF_New capacity) ops
  exact ⟨s, hr, hc⟩

theorem WF.empty_of_entries {s : LRUCache} (hs : WF s) (he : s.entries = []) :
    s.list.order = [] ∧ s.cache = [] := by
  have h1 : s.list.order.length = 0 := by rw [← hs.entries_length, he]; rfl
  have h2 : s.cache.length = 0 := by rw [hs.size, h1]
  exact ⟨List.length_eq_zero.1 h1, List.length_eq_zero.1 h2⟩

theorem step_stays_empty {s s' : LRUCache} (hs : WF s) (hcap : s.capacity ≤ 0)
    (he : s.entries = []) (op : Op) (hstep : step s op = some s') : s'.entries = [] := by
  have hk : ∀ k, k ∉ s.keys := fun k => by simp [LRUCache.keys, he]
  cases op with
  | get k =>
    simp only [step, Get_absent hs (hk k), Option.map_some', Option.some.injEq] at hstep
    subst hstep; exact he
  | set k v =>
    obtain ⟨s₁, h₁, _, _, he₁⟩ := Set_absent hs (hk k) v
    simp only [step, h₁, Option.some.injEq] at hstep
    subst hstep
    have hfull : ((s.entries.length + 1 : Nat) : Int) > s.capacity := by
      rw [he]; simp; omega
    rw [he₁, if_pos hfull, he]; rfl

theorem run_stays_empty {s s' : LRUCache} (hs : WF s) (hcap : s.capacity ≤ 0)
    (he : s.entries = []) (ops : List Op) (hrun : run s ops = some s') : s'.entries = [] := by
  induction ops generalizing s with
  | nil =>
    simp only [run, Option.some.injEq] at hrun
    subst hrun; exact he
  | cons op ops ih =>
    obtain ⟨s₁, h₁, hw₁, hc₁⟩ := step_total hs op
    simp only [run, h₁, Option.some_bind] at hrun
    exact ih hw₁ (hc₁ ▸ hcap) (step_stays_empty hs hcap he op h₁) hrun

/-- C18: for every capacity at most 0, every state reachable from `NewLRUCache capacity`
has an empty recency list and an empty index; `Set k v` returns, the element it evicts is
the one it has just pushed, list and index are empty again afterwards, and a `Get k`
issued right after returns `(nil, false)`. -/
theorem nonpositive_capacity_stores_nothing (capacity : Int) (hcap : capacity ≤ 0)
    (s : LRUCache) (hs : Reachable capacity s) :
    s.list.order = [] ∧ s.cache = [] ∧
    ∀ k v, ∃ s', Set s k v = some s' ∧
      (s.list.PushFront (Any.entry ⟨k, v⟩)).2.Back = some (s.list.PushFront (Any.entry ⟨k, v⟩)).1 ∧
      s'.list.order = [] ∧ s'.cache = [] ∧ s'.entries = [] ∧
      Get s' k = some ((Value.nil, false), s') := by
  have hw := hs.wf
  have hc := hs.capacity_eq
  obtain ⟨ops, hr⟩ := hs
  have he : s.entries = [] :=
    run_stays_empty (WF_New capacity) hcap rfl ops hr
  obtain ⟨ho, hi⟩ := hw.empty_of_entries he
  refine ⟨ho, hi, fun k v => ?_⟩
  obtain ⟨s', h', hw', _⟩ := Set_total hw k v
  have he' : s'.entries = [] :=
    step_stays_empty hw (hc ▸ hcap) he (Op.set k v) h'
  obtain ⟨ho', hi'⟩ := hw'.empty_of_entries he'
  refine ⟨s', h', ?_, ho', hi', he', Get_absent hw' (by simp [LRUCache.keys, he'])⟩
  simp [GoList.PushFront, GoList.Back, ho]

theorem nonpositive_capacity_stores_nothing_witness :
    (-2 : Int) ≤ 0 ∧ Reachable (-2) (NewLRUCache (-2)) ∧
    ∃ s', Set (NewLRUCache (-2)) "a" (Value.int 1) = some s' ∧
      s'.list.order = [] ∧ s'.cache = [] ∧ Get s' "a" = some ((Value.nil, false), s') :=
  ⟨by decide, ⟨[], rfl⟩,
    ((nonpositive_capacity_stores_nothing (-2) (by decide) (NewLRUCache (-2)) ⟨[], rfl⟩).2.2
      "a" (Value.int 1)).imp (fun _ h => ⟨h.1, h.2.2.1, h.2.2.2.1, h.2.2.2.2.2⟩)⟩

/-! ## Absence of panics, and printing -/

theorem printEntries_eq (l : GoList) (es : List Element)
    (h : ∀ e ∈ es, ∃ c, asEntry l e = some c) :
    printEntries l es = some (renderEntries (es.filterMap (asEntry l))) := by
  induction es with
  | nil => rfl
  | cons e es ih =>
    obtain ⟨c, hc⟩ := h e (List.mem_cons_self _ _)
    have ih' := ih (fun x hx => h x (List.mem_cons_of_mem _ hx))
    simp only [printEntries, hc, ih', Option.map_some', List.filterMap_cons, renderEntries]

theorem PrintCache_eq {s : LRUCache} (hs : WF s) :
    PrintCache s = some ("LRU Cache (Capacity: " ++ toString s.capacity ++ ", Size: " ++
      toString s.list.Len ++ "): [" ++ renderEntries s.entries ++ "]\n", s) := by
  have h := printEntries_eq s.list s.list.order (fun e he => by
    obtain ⟨c, hc, _⟩ := hs.linked e he
    exact ⟨c, hc⟩)
  unfold PrintCache
  rw [h]
  rfl

theorem back_after_push_is_entry {s : LRUCache} (hs : WF s) (k : String) (v : Value) :
    ∃ oldest c, (s.list.PushFront (Any.entry ⟨k, v⟩)).2.Back = some oldest ∧
      asEntry (s.list.PushFront (Any.entry ⟨k, v⟩)).2 oldest = some c := by
  obtain ⟨a, ha⟩ : ∃ a, (s.list.PushFront (Any.entry ⟨k, v⟩)).2.Back = some a := by
    show ∃ a, (s.list.heap.length :: s.list.order).getLast? = some a
    rw [List.getLast?_eq_getLast _ (List.cons_ne_nil _ _)]
    exact ⟨_, rfl⟩
  have ham : a ∈ s.list.heap.length :: s.list.order := List.mem_of_getLast?_eq_some ha
  rcases List.mem_cons.1 ham with rfl | hmem
  · exact ⟨_, ⟨k, v⟩, ha, asEntry_push_new _ _⟩
  · obtain ⟨c, hc, _⟩ := hs.linked a hmem
    exact ⟨a, c, ha, (asEntry_push_old _ _ _ (asEntry_lt _ _ _ hc)).trans hc⟩

/-- C12: in every state reachable from `NewLRUCache capacity` (any capacity, so in
particular capacity at least 1) every linked element of the recency list holds a
`*CacheEntry`; hence `Get`, `Set` and `PrintCache` return for every argument (no type
assertion panics), and in `Set` the back element of the list after the push is never nil
and holds a `*CacheEntry`, so the nil guard of the eviction branch always passes. -/
theorem no_call_panics (capacity : Int) (s : LRUCache) (hs : Reachable capacity s) :
    (∀ e ∈ s.list.order, ∃ c, s.list.load e = some (Any.entry c)) ∧
    (∀ k, ∃ r s', Get s k = some (r, s')) ∧
    (∀ k v, ∃ s', Set s k v = some s') ∧
    (∃ out, PrintCache s = some (out, s)) ∧
    (∀ k v, ∃ oldest c, (s.list.PushFront (Any.entry ⟨k, v⟩)).2.Back = some oldest ∧
      asEntry (s.list.PushFront (Any.entry ⟨k, v⟩)).2 oldest = some c) := by
  have hw := hs.wf
  refine ⟨?_, ?_, ?_, ⟨_, PrintCache_eq hw⟩, back_after_push_is_entry hw⟩
  · intro e he
    obtain ⟨c, hc, _⟩ := hw.linked e he
    refine ⟨c, ?_⟩
    unfold asEntry at hc
    cases hl : s.list.load e with
    | none => simp [hl] at hc
    | some x =>
      cases x with
      | nil => simp [hl] at hc
      | entry d =>
        simp only [hl, Option.some.injEq] at hc
        rw [hc]
  · intro k
    obtain ⟨r, s', h, _⟩ := Get_total hw k
    exact ⟨r, s', h⟩
  · intro k v
    obtain ⟨s', h, _⟩ := Set_total hw k v
    exact ⟨s', h⟩

theorem no_call_panics_witness :
    Reachable 2 sampleState ∧
    (∃ r s', Get sampleState "b" = some (r, s')) ∧
    (∃ s', Set sampleState "c" Value.nil = some s') ∧
    (∃ out, PrintCache sampleState = some (out, sampleState)) :=
  ⟨sample_reachable, (no_call_panics 2 sampleState sample_reachable).2.1 "b",
    (no_call_panics 2 sampleState sample_reachable).2.2.1 "c" Value.nil,
    (no_call_panics 2 sampleState sample_reachable).2.2.2.1⟩

/-- C15: `PrintCache` is read-only: whenever it returns, in any state, the cache
afterwards is the cache before; and in every reachable state it returns, and the text
it prints reports the configured capacity, the list length as the size, and then the key
and value of each entry in head-to-tail order. -/
theorem PrintCache_is_read_only (capacity : Int) (s : LRUCache) (hs : Reachable capacity s) :
    (∀ t out t', PrintCache t = some (out, t') → t' = t) ∧
    PrintCache s = some ("LRU Cache (Capacity: " ++ toString capacity ++ ", Size: " ++
      toString s.list.Len ++ "): [" ++ renderEntries s.entries ++ "]\n", s) ∧
    s.list.Len = s.entries.length := by
  refine ⟨?_, ?_, hs.wf.entries_length.symm⟩
  · intro t out t' h
    unfold PrintCache at h
    cases hp : printEntries t.list t.list.order with
    | none => simp [hp] at h
    | some body =>
      simp only [hp, Option.some.injEq, Prod.mk.injEq] at h
      exact h.2.symm
  · rw [← hs.capacity_eq]
    exact PrintCache_eq hs.wf

theorem PrintCache_is_read_only_witness :
    Reachable 2 sampleState ∧
    PrintCache sampleState =
      some ("LRU Cache (Capacity: 2, Size: 2): [(a: 1) (b: x) ]\n", sampleState) :=
  ⟨sample_reachable,
    (PrintCache_is_read_only 2 sampleState sample_reachable).2.1.trans (by decide)⟩

/-! ## Refinement of the association-list model -/

theorem WF.find_entry {s : LRUCache} (hs : WF s) {c : CacheEntry} (hc : c ∈ s.entries) :
    s.entries.find? (fun d => decide (d.key = c.key)) = some c := by
  cases hf : s.entries.find? (fun d => decide (d.key = c.key)) with
  | none =>
    have := List.find?_eq_none.1 hf c hc
    simp at this
  | some d =>
    have hd : d ∈ s.entries := List.mem_of_find?_eq_some hf
    have hk : d.key = c.key := by simpa using List.find?_some hf
    rw [hs.entry_unique hd hc hk]

theorem entries_find_absent {s : LRUCache} {k : String} (hk : k ∉ s.keys) :
    s.entries.find? (fun d => decide (d.key = k)) = none := by
  rw [List.find?_eq_none]
  intro d hd
  have : d.key ≠ k := fun h => hk (h ▸ List.mem_map_of_mem CacheEntry.key hd)
  simpa using this

theorem WF.filter_eq_erase {s : LRUCache} (hs : WF s) {c : CacheEntry} (hc : c ∈ s.entries) :
    s.entries.filter (fun x => decide (x.key ≠ c.key)) = s.entries.erase c := by
  rw [hs.entries_nodup.erase_eq_filter]
  apply List.filter_congr
  intro x hx
  by_cases hxc : x = c
  · subst hxc; simp
  · have : x.key ≠ c.key := fun hk => hxc (hs.entry_unique hx hc hk)
    simp [hxc, this]

theorem Get_refines {s : LRUCache} (hs : WF s) (k : String) :
    ∃ r s', Get s k = some (r, s') ∧ WF s' ∧ s'.capacity = s.capacity ∧
      modelGet s.entries k = (r, s'.entries) := by
  by_cases hk : k ∈ s.keys
  · obtain ⟨c, s', hc, hck, hg, hw, hcap, _, _, he⟩ := Get_resident hs hk
    subst hck
    refine ⟨_, s', hg, hw, hcap, ?_⟩
    unfold modelGet
    rw [hs.find_entry hc, he, hs.filter_eq_erase hc]
  · refine ⟨_, s, Get_absent hs hk, hs, rfl, ?_⟩
    unfold modelGet
    rw [entries_find_absent hk]

theorem Set_refines {s : LRUCache} (hs : WF s) (k : String) (v : Value) :
    ∃ s', Set s k v = some s' ∧ WF s' ∧ s'.capacity = s.capacity ∧
      modelSet s.capacity s.entries k v = s'.entries := by
  by_cases hk : k ∈ s.keys
  · obtain ⟨s', h, hw, hcap, _, he⟩ := Set_resident hs hk v
    obtain ⟨c, hc, hck⟩ := List.mem_map.1 hk
    subst hck
    refine ⟨s', h, hw, hcap, ?_⟩
    unfold modelSet
    rw [hs.find_entry hc, he, hs.filter_eq_erase hc]
  · obtain ⟨s', h, hw, hcap, he⟩ := Set_absent hs hk v
    refine ⟨s', h, hw, hcap, ?_⟩
    unfold modelSet
    rw [entries_find_absent hk, he]
    rfl

theorem run_refines {s : LRUCache} (hs : WF s) (ops : List Op) :
    ∃ rs s', runResults s ops = some (rs, s') ∧ run s ops = some s' ∧
      modelRun s.capacity s.entries ops = (rs, s'.entries) := by
  induction ops generalizing s with
  | nil => exact ⟨[], s, rfl, rfl, rfl⟩
  | cons op ops ih =>
    cases op with
    | get k =>
      obtain ⟨r, s₁, hg, hw₁, hc₁, hm⟩ := Get_refines hs k
      obtain ⟨rs, s', h1, h2, h3⟩ := ih hw₁
      refine ⟨r :: rs, s', ?_, ?_, ?_⟩
      · simp [runResults, hg, h1]
      · simp [run, step, hg, h2]
      · simp only [modelRun, hm]
        rw [← hc₁, h3]
    | set k v =>
      obtain ⟨s₁, hset, hw₁, hc₁, hm⟩ := Set_refines hs k v
      obtain ⟨rs, s', h1, h2, h3⟩ := ih hw₁
      refine ⟨rs, s', ?_, ?_, ?_⟩
      · simp [runResults, hset, h1]
      · simp [run, step, hset, h2]
      · simp only [modelRun, hm]
        rw [← hc₁, h3]

/-- C16: the map-plus-list cache refines the association-list model.  Reading a cache
state as its list of (key, value) pairs head to tail, every sequence of `Get` and `Set`
calls on `NewLRUCache capacity` runs to completion, and the results of its `Get` calls
and its final state are those of the model run from the empty list; the same holds call
by call from every reachable state. -/
theorem cache_refines_list_model (capacity : Int) (ops : List Op) :
    (∃ rs s, runResults (NewLRUCache capacity) ops = some (rs, s) ∧
      run (NewLRUCache capacity) ops = some s ∧
      modelRun capacity [] ops = (rs, s.entries)) ∧
    (∀ s, run (NewLRUCache capacity) ops = some s →
      (∀ k, ∃ r s', Get s k = some (r, s') ∧ modelGet s.entries k = (r, s'.entries)) ∧
      (∀ k v, ∃ s', Set s k v = some s' ∧ modelSet capacity s.entries k v = s'.entries)) := by
  constructor
  · exact run_refines (WF_New capacity) ops
  · intro s hr
    have hs : Reachable capacity s := ⟨ops, hr⟩
    have hw := hs.wf
    have hc := hs.capacity_eq
    constructor
    · intro k
      obtain ⟨r, s', hg, _, _, hm⟩ := Get_refines hw k
      exact ⟨r, s', hg, hm⟩
    · intro k v
      obtain ⟨s', h, _, _, hm⟩ := Set_refines hw k v
      exact ⟨s', h, hc ▸ hm⟩

theorem cache_refines_list_model_witness :
    runResults (NewLRUCache 2) (sampleOps ++ [Op.set "c" Value.nil, Op.get "b"]) =
      some ([(Value.int 1, true), (Value.nil, false)],
        { capacity := 2, cache := [("c", 2), ("a", 0)],
          list := { heap := [Any.entry ⟨"a", Value.int 1⟩, Any.entry ⟨"b", Value.str "x"⟩,
                             Any.entry ⟨"c", Value.nil⟩],
                    order := [2, 0] } }) ∧
    modelRun 2 [] (sampleOps ++ [Op.set "c" Value.nil, Op.get "b"]) =
      ([(Value.int 1, true), (Value.nil, false)], [⟨"c", Value.nil⟩, ⟨"a", Value.int 1⟩]) := by
  obtain ⟨rs, s, h1, _, h3⟩ :=
    (cache_refines_list_model 2 (sampleOps ++ [Op.set "c" Value.nil, Op.get "b"])).1
  have h1' : runResults (NewLRUCache 2) (sampleOps ++ [Op.set "c" Value.nil, Op.get "b"]) =
      some ([(Value.int 1, true), (Value.nil, false)],
        { capacity := 2, cache := [("c", 2), ("a", 0)],
          list := { heap := [Any.entry ⟨"a", Value.int 1⟩, Any.entry ⟨"b", Value.str "x"⟩,
                             Any.entry ⟨"c", Value.nil⟩],
                    order := [2, 0] } }) := by decide
  rw [h1'] at h1
  simp only [Option.some.injEq, Prod.mk.injEq] at h1
  obtain ⟨rfl, rfl⟩ := h1
  exact ⟨h1', h3⟩

/-! ## Size as a function of the keys set -/

theorem setKeys_append (xs ys : List Op) : setKeys (xs ++ ys) = setKeys xs ++ setKeys ys := by
  induction xs with
  | nil => rfl
  | cons op xs ih =>
    cases op with
    | get k => simpa [setKeys] using ih
    | set k v => simp [setKeys, ih]

theorem step_filled {s s' : LRUCache} (hs : WF s) {ks : List String} (hf : Filled s ks)
    (op : Op) (hstep : step s op = some s') : Filled s' (ks ++ setKeys [op]) := by
  obtain ⟨h1, h2, h3⟩ := hf
  cases op with
  | get k =>
    obtain ⟨r, s₁, hg, hw₁, hc₁, hl₁⟩ := Get_total hs k
    simp only [step, hg, Option.map_some', Option.some.injEq] at hstep
    subst hstep
    have hp := Get_keys_perm hs hg
    simp only [setKeys, List.append_nil]
    refine ⟨fun x hx => h1 x (hp.subset hx), ?_, ?_⟩
    · rw [hl₁, hc₁]
      exact fun hlt x hx => hp.symm.subset (h2 hlt x hx)
    · rw [hl₁, hc₁]; exact h3
  | set k v =>
    have hks : setKeys [Op.set k v] = [k] := rfl
    rw [hks]
    by_cases hk : k ∈ s.keys
    · obtain ⟨s₁, h, hw₁, hc₁, hcache, he⟩ := Set_resident hs hk v
      simp only [step, h, Option.some.injEq] at hstep
      subst hstep
      have hp := Set_resident_keys hs hw₁ hk he
      have hl : s₁.entries.length = s.entries.length := by
        rw [← hw₁.index_size, hcache, hs.index_size]
      refine ⟨fun x hx => List.mem_append_left _ (h1 x (hp.subset hx)), ?_, ?_⟩
      · rw [hl, hc₁]
        intro hlt x hx
        rcases List.mem_append.1 hx with hx | hx
        · exact hp.symm.subset (h2 hlt x hx)
        · rw [List.mem_singleton] at hx
          exact hp.symm.subset (hx ▸ hk)
      · rw [hl, hc₁]; exact h3
    · obtain ⟨s₁, h, hw₁, hc₁, he⟩ := Set_absent hs hk v
      simp only [step, h, Option.some.injEq] at hstep
      subst hstep
      have hsub : ∀ x ∈ s₁.keys, x ∈ ks ++ [k] := by
        intro x hx
        rcases Set_keys_shape hs h with h0 | ⟨rest, hkeys, hrest, _⟩
        · rw [h0] at hx; simp at hx
        · rw [hkeys] at hx
          rcases List.mem_cons.1 hx with rfl | hx
          · simp
          · exact List.mem_append_left _ (h1 x (hrest.subset hx))
      by_cases hfull : ((s.entries.length + 1 : Nat) : Int) > s.capacity
      · rw [if_pos hfull] at he
        have hl : s₁.entries.length = s.entries.length := by
          rw [he]; simp
        refine ⟨hsub, ?_, ?_⟩
        · rw [hl, hc₁]
          intro hlt
          exfalso
          push_cast at hfull
          omega
        · rw [hl, hc₁]; exact h3
      · rw [if_neg hfull] at he
        have hl : s₁.entries.length = s.entries.length + 1 := by
          rw [he]; rfl
        have hkeys : s₁.keys = k :: s.keys := by
          rw [LRUCache.keys, he]; rfl
        refine ⟨hsub, ?_, ?_⟩
        · intro _ x hx
          rw [hkeys]
          rcases List.mem_append.1 hx with hx | hx
          · have hlt : (s.entries.length : Int) < s.capacity := by
              push_cast at hfull
              omega
            exact List.mem_cons_of_mem _ (h2 hlt x hx)
          · rw [List.mem_singleton] at hx
            rw [hx]; exact List.mem_cons_self _ _
        · rw [hl, hc₁]
          push_cast at hfull ⊢
          omega

theorem run_filled {s s' : LRUCache} (hs : WF s) {ks : List String} (hf : Filled s ks)
    (ops : List Op) (hrun : run s ops = some s') : Filled s' (ks ++ setKeys ops) := by
  induction ops generalizing s ks with
  | nil =>
    simp only [run, Option.some.injEq] at hrun
    subst hrun
    simpa [setKeys] using hf
  | cons op ops ih =>
    obtain ⟨s₁, h₁, hw₁, _⟩ := step_total hs op
    simp only [run, h₁, Option.some_bind] at hrun
    have := ih hw₁ (step_filled hs hf op h₁) hrun
    have happ : setKeys (op :: ops) = setKeys [op] ++ setKeys ops :=
      setKeys_append [op] ops
    rw [happ, ← List.append_assoc]
    exact this

theorem Filled.size_eq {s : LRUCache} (hs : WF s) {ks : List String} (hf : Filled s ks) :
    (s.list.Len : Int) = min s.capacity (ks.dedup.length : Int) := by
  obtain ⟨h1, h2, h3⟩ := hf
  have hlen : s.list.Len = s.keys.length := by
    rw [LRUCache.keys, List.length_map, hs.entries_length]; rfl
  have hel : s.entries.length = s.keys.length := by
    rw [LRUCache.keys, List.length_map]
  have hle : s.keys.length ≤ ks.dedup.length :=
    (List.subperm_of_subset hs.keys_nodup
      (fun x hx => List.mem_dedup.2 (h1 x hx))).length_le
  rw [hlen]
  rw [hel] at h2 h3
  by_cases hlt : (s.keys.length : Int) < s.capacity
  · have hperm : s.keys.Perm ks.dedup := by
      rw [List.perm_ext_iff_of_nodup hs.keys_nodup (List.nodup_dedup ks)]
      intro x
      exact ⟨fun hx => List.mem_dedup.2 (h1 x hx), fun hx => h2 hlt x (List.mem_dedup.1 hx)⟩
    rw [← hperm.length_eq]
    omega
  · omega

/-- C17: for every capacity at least 0 and every sequence of `Get` and `Set` calls on
`NewLRUCache capacity`, the sequence runs to completion and the size afterwards is the
minimum of the capacity and the number of distinct keys passed to `Set`; whatever calls
follow, the size does not decrease, and once it equals the capacity it stays there. -/
theorem size_is_min_of_capacity_and_keys_set (capacity : Int) (hcap : 0 ≤ capacity)
    (ops : List Op) :
    ∃ s, run (NewLRUCache capacity) ops = some s ∧
      (s.list.Len : Int) = min capacity ((setKeys ops).dedup.length : Int) ∧
      ∀ more, ∃ s', run (NewLRUCache capacity) (ops ++ more) = some s' ∧
        s.list.Len ≤ s'.list.Len ∧
        ((s.list.Len : Int) = capacity → (s'.list.Len : Int) = capacity) := by
  have h0 : Filled (NewLRUCache capacity) [] :=
    ⟨fun x hx => by simp [NewLRUCache, LRUCache.keys, LRUCache.entries, GoList.New] at hx,
     fun _ x hx => by simp at hx,
     by simpa [NewLRUCache, LRUCache.entries, GoList.New] using hcap⟩
  have key : ∀ l : List Op, ∃ s, run (NewLRUCache capacity) l = some s ∧
      (s.list.Len : Int) = min capacity ((setKeys l).dedup.length : Int) := by
    intro l
    obtain ⟨s, hr, hw, hc⟩ := run_total (WF_New capacity) l
    have hf := run_filled (WF_New capacity) h0 l hr
    rw [List.nil_append] at hf
    have := hf.size_eq hw
    rw [hc] at this
    exact ⟨s, hr, this⟩
  obtain ⟨s, hr, hsz⟩ := key ops
  refine ⟨s, hr, hsz, fun more => ?_⟩
  obtain ⟨s', hr', hsz'⟩ := key (ops ++ more)
  have hmono : (setKeys ops).dedup.length ≤ (setKeys (ops ++ more)).dedup.length := by
    apply (List.subperm_of_subset (List.nodup_dedup _) _).length_le
    intro x hx
    rw [List.mem_dedup] at hx ⊢
    rw [setKeys_append]
    exact List.mem_append_left _ hx
  refine ⟨s', hr', ?_, ?_⟩ <;> omega

theorem size_is_min_of_capacity_and_keys_set_witness :
    (0 : Int) ≤ 2 ∧ (setKeys (sampleOps ++ [Op.set "c" Value.nil])).dedup.length = 3 ∧
    ∃ s, run (NewLRUCache 2) (sampleOps ++ [Op.set "c" Value.nil]) = some s ∧
      (s.list.Len : Int) = min 2 ((setKeys (sampleOps ++ [Op.set "c" Value.nil])).dedup.length : Int) :=
  ⟨by decide, by decide,
    (size_is_min_of_capacity_and_keys_set 2 (by decide)
      (sampleOps ++ [Op.set "c" Value.nil])).imp (fun _ h => ⟨h.1, h.2.1⟩)⟩

end CacheGolang
